import Mathlib

/-!
DataDecoder of `fakeAuroraBoard_esp32/src/main.cpp`.

A shallow embedding of the byte-stream decoder (`class DataDecoder`, lines 53-167 of
`main.cpp`) and of the colour decode it uses, followed by theorems about it.

Conventions of the embedding.

* A `uint8_t` is a `Nat` below 256, an `int` is an `Int`; `push_back(dataByte)` on a
  `std::vector<uint8_t>` truncates with `% 256`.
* The `double` arithmetic of `scaledColorToFullColorV3` is modelled exactly: a finite
  non-negative double is a dyadic rational `num / 2 ^ shift`, and every operation rounds
  the exact result to 53 significant bits, ties to even (IEEE 754 binary64, default
  rounding mode). All values that occur lie between `1/7` and `255`, far from the
  overflow and subnormal ranges.
* `std::vector::operator[]` does no bounds check. What a read at an index at or past
  `size()` finds is a parameter `past` of the model: `past i = none` stops the run
  (the read is a fault), `past i = some v` lets the run go on with the byte `v % 256`.
  Theorems that hold for every `past` hold under both readings.
-/

namespace Kilter

/-! ## Data model -/

/-- The class `Hold` (lines 11-51): an LED position and its colour. -/
structure Hold where
  position : Nat
  red : Int
  green : Int
  blue : Int
  deriving DecidableEq, Repr

/-- The private fields of `DataDecoder` (lines 56-59). -/
structure DataDecoder where
  currentPacketLength : Int
  currentPacket : List Nat
  holds : List Hold
  allPacketsReceived : Bool
  deriving DecidableEq, Repr

/-- The constructor `DataDecoder()` with the default member initialisers. -/
def DataDecoder.init : DataDecoder :=
  { currentPacketLength := -1, currentPacket := [], holds := [], allPacketsReceived := false }

/-! ## Binary64 arithmetic on non-negative values -/

/-- A finite non-negative double: the dyadic rational `num / 2 ^ shift`. -/
structure Dbl where
  num : Nat
  shift : Nat
  deriving DecidableEq, Repr

/-- Position of the leading bit: `ilog2 n n` is `⌊log₂ n⌋` for `0 < n`. -/
def ilog2 : Nat → Nat → Nat
  | 0, _ => 0
  | fuel + 1, n => if n < 2 then 0 else ilog2 fuel (n / 2) + 1

/-- The integer nearest to `n / d`, ties to the even one. -/
def roundHalfEven (n d : Nat) : Nat :=
  let q := n / d
  let r := n % d
  if 2 * r < d then q
  else if d < 2 * r then q + 1
  else if q % 2 = 0 then q else q + 1

/-- The double nearest to the exact quotient `n / d` (for `0 < d`): the quotient is
scaled by `2 ^ s` into `[2^52, 2^53)`, rounded to an integer significand, and scaled
back. -/
def Dbl.round (n d : Nat) : Dbl :=
  if n = 0 then ⟨0, 0⟩
  else
    let fl0 : Int := (ilog2 n n : Int) - (ilog2 d d : Int)
    let fl : Int := if n * 2 ^ (-fl0).toNat < d * 2 ^ fl0.toNat then fl0 - 1 else fl0
    let s : Int := 52 - fl
    let m := roundHalfEven (n * 2 ^ s.toNat) (d * 2 ^ (-s).toNat)
    ⟨m * 2 ^ (-s).toNat, s.toNat⟩

/-- Conversion of a non-negative `int` to `double`, and the literals `3.`, `7.`, `255.`. -/
def Dbl.ofInt (n : Nat) : Dbl := Dbl.round n 1

/-- The operator `/` on doubles. -/
def Dbl.div (a b : Dbl) : Dbl := Dbl.round (a.num * 2 ^ b.shift) (b.num * 2 ^ a.shift)

/-- The operator `*` on doubles. -/
def Dbl.mul (a b : Dbl) : Dbl := Dbl.round (a.num * b.num) (2 ^ (a.shift + b.shift))

/-- The conversion `static_cast<int>`: truncation toward zero. -/
def Dbl.toInt (a : Dbl) : Int := Int.ofNat (a.num / 2 ^ a.shift)

/-! ## The decoder -/

/-- The method `scaledColorToFullColorV3` (lines 159-166). The result vector
`fullColor` is the triple `(fullColor[0], fullColor[1], fullColor[2])`. -/
def scaledColorToFullColorV3 (holdData : Nat) : Int × Int × Int :=
  let fullColor2 := Dbl.toInt (Dbl.mul (Dbl.div (Dbl.ofInt ((holdData &&& 0b00000011) >>> 0))
    (Dbl.ofInt 3)) (Dbl.ofInt 255))
  let fullColor1 := Dbl.toInt (Dbl.mul (Dbl.div (Dbl.ofInt ((holdData &&& 0b00011100) >>> 2))
    (Dbl.ofInt 7)) (Dbl.ofInt 255))
  let fullColor0 := Dbl.toInt (Dbl.mul (Dbl.div (Dbl.ofInt ((holdData &&& 0b11100000) >>> 5))
    (Dbl.ofInt 7)) (Dbl.ofInt 255))
  (fullColor0, fullColor1, fullColor2)

/-- The method `checksum` (lines 149-157). The accumulator `i` is an `int` that stays in
`0..255`; `~i` is the complement of its 32-bit pattern, and the final `& 255` leaves a
value in `0..255`. -/
def checksum (list : List Nat) : Nat :=
  let i : Nat := list.foldl (fun i byteValue => (i + byteValue) &&& 255) 0
  (i ^^^ 0xFFFFFFFF) &&& 255

/-- The conversion of an `int` to `uint8_t` done by `push_back`. -/
def toUInt8 (x : Int) : Nat := (x % 256).toNat

/-- The read `currentPacket[i]`: unchecked, see `past` in the header. -/
def readAt (past : Nat → Option Nat) (currentPacket : List Nat) (i : Nat) : Option Nat :=
  match currentPacket[i]? with
  | some b => some b
  | none => (past i).map (fun v => v % 256)

/-- The range constructor `std::vector<uint8_t>(begin() + first, begin() + last)`;
a range that is not inside the vector is a fault. -/
def subVector (currentPacket : List Nat) (first last : Int) : Option (List Nat) :=
  if 0 ≤ first ∧ first ≤ last ∧ last ≤ (currentPacket.length : Int) then
    some ((currentPacket.drop first.toNat).take (last - first).toNat)
  else none

/-- The method `isThisTheFirstPacket` (lines 139-142). -/
def isThisTheFirstPacket (past : Nat → Option Nat) (s : DataDecoder) : Option Bool :=
  match readAt past s.currentPacket 4 with
  | none => none
  | some b => some (b == 84 || b == 82)

/-- The method `isThisTheLastPacket` (lines 144-147). -/
def isThisTheLastPacket (past : Nat → Option Nat) (s : DataDecoder) : Option Bool :=
  match readAt past s.currentPacket 4 with
  | none => none
  | some b => some (b == 84 || b == 83)

/-- The payload loop of `verifyAndParsePacket` (lines 126-134), started at index `i`
with the holds collected so far. The first argument bounds the number of iterations;
when it reaches `0` the loop condition is false already (`parseLoop_fuel`), since it is
started at the length of the packet and `i` grows by 3. -/
def parseLoop (past : Nat → Option Nat) (currentPacket : List Nat) (currentPacketLength : Int) :
    Nat → Nat → List Hold → Option (List Hold)
  | 0, _, holds => some holds
  | fuel + 1, i, holds =>
    if (i : Int) < currentPacketLength - 1 then
      match readAt past currentPacket (i + 1) with
      | none => none
      | some hi =>
        match readAt past currentPacket i with
        | none => none
        | some lo =>
          match readAt past currentPacket (i + 2) with
          | none => none
          | some c =>
            let position := ((hi <<< 8) + lo) % 65536
            let clr := scaledColorToFullColorV3 c
            parseLoop past currentPacket currentPacketLength fuel (i + 3)
              (holds ++ [⟨position, clr.1, clr.2.1, clr.2.2⟩])
    else some holds

/-- The method `verifyAndParsePacket` (lines 110-137): the returned `bool` and the
decoder after the call (only `holds` can change). -/
def verifyAndParsePacket (past : Nat → Option Nat) (s : DataDecoder) :
    Option (Bool × DataDecoder) :=
  match subVector s.currentPacket 4 (s.currentPacketLength - 1) with
  | none => none
  | some list =>
    match readAt past s.currentPacket 2 with
    | none => none
    | some c =>
      if checksum list ≠ c then some (false, s)
      else
        match isThisTheFirstPacket past s with
        | none => none
        | some first =>
          if (s.holds.length = 0 ∧ first = false) ∨ (0 < s.holds.length ∧ first = true) then
            some (false, s)
          else
            match parseLoop past s.currentPacket s.currentPacketLength
                s.currentPacket.length 5 s.holds with
            | none => none
            | some holds => some (true, { s with holds := holds })

/-- Lines 85-95 of `newByteIn`: the packet is complete; it is verified and parsed, the
holds are dropped or the ready flag is set, and the buffer is reset. -/
def completePacket (past : Nat → Option Nat) (s : DataDecoder) : Option DataDecoder :=
  match verifyAndParsePacket past s with
  | none => none
  | some (false, s) =>
    some { s with holds := [], currentPacket := [], currentPacketLength := -1 }
  | some (true, s) =>
    match isThisTheLastPacket past s with
    | none => none
    | some last =>
      some { s with allPacketsReceived := last, currentPacket := [], currentPacketLength := -1 }

/-- The method `newByteIn` (lines 64-97). The comparison of `size()` with the `int`
`currentPacketLength` is made on integers: `-1` never equals a size. -/
def newByteIn (past : Nat → Option Nat) (s : DataDecoder) (dataByte : Int) :
    Option DataDecoder :=
  let s := if s.allPacketsReceived then { s with allPacketsReceived := false, holds := [] } else s
  if s.currentPacket.length = 0 ∧ dataByte ≠ 1 then some s
  else
    let s := { s with currentPacket := s.currentPacket ++ [toUInt8 dataByte] }
    if s.currentPacket.length = 2 then some { s with currentPacketLength := dataByte + 5 }
    else if (s.currentPacket.length : Int) = s.currentPacketLength then completePacket past s
    else some s

/-- The method `getAllPacketsReceived` (lines 99-102). -/
def getAllPacketsReceived (s : DataDecoder) : Bool := s.allPacketsReceived

/-- The method `getHolds` (lines 104-107): returns a copy of `holds`; the second
component is the decoder after the call. -/
def getHolds (s : DataDecoder) : List Hold × DataDecoder := (s.holds, s)

/-- The loop of `onWrite` (lines 195-197) as far as the decoder is concerned: the bytes
of the received value are handed to `newByteIn` one at a time, in order. -/
def feed (past : Nat → Option Nat) : DataDecoder → List Int → Option DataDecoder
  | s, [] => some s
  | s, b :: bs =>
    match newByteIn past s b with
    | none => none
    | some s1 => feed past s1 bs

/-- Feeding a list of byte values `0..255`. -/
def feedBytes (past : Nat → Option Nat) (s : DataDecoder) (bytes : List Nat) : Option DataDecoder :=
  feed past s (bytes.map Int.ofNat)

/-- The effect of lines 66-70 of `newByteIn`: a batch that was ready is dropped. -/
def dropReady (s : DataDecoder) : DataDecoder :=
  if s.allPacketsReceived then { s with allPacketsReceived := false, holds := [] } else s

/-! ## Frames, as the transmitter builds them -/

/-- The payload bytes of a list of triplets `(posLow, posHigh, colorByte)`. -/
def tripletBytes : List (Nat × Nat × Nat) → List Nat
  | [] => []
  | (posLow, posHigh, colorByte) :: ts => posLow :: posHigh :: colorByte :: tripletBytes ts

/-- The hold a triplet stands for: little-endian position, decoded colour. -/
def holdOfTriplet (t : Nat × Nat × Nat) : Hold :=
  { position := t.1 + 256 * t.2.1
    red := (scaledColorToFullColorV3 t.2.2).1
    green := (scaledColorToFullColorV3 t.2.2).2.1
    blue := (scaledColorToFullColorV3 t.2.2).2.2 }

/-- The checksum-valid frame with role byte `role`, reserved byte `r`, payload `ts` and
terminator `t`: `[1, 3n+1, c, r, role, triplets..., t]`. -/
def frameOf (role r t : Nat) (ts : List (Nat × Nat × Nat)) : List Nat :=
  [1, 3 * ts.length + 1, checksum (role :: tripletBytes ts), r, role] ++ tripletBytes ts ++ [t]

/-- All three bytes of every triplet are bytes. -/
def TripletsOk (ts : List (Nat × Nat × Nat)) : Prop :=
  ∀ x ∈ ts, x.1 < 256 ∧ x.2.1 < 256 ∧ x.2.2 < 256

/-- The ordering rule is broken: a packet that is not a first packet while no hold is
collected, or a first packet (role 82 or 84) while holds are collected. -/
def OrderViolation (holds : List Hold) (role : Nat) : Prop :=
  (holds = [] ∧ role ≠ 82 ∧ role ≠ 84) ∨ (holds ≠ [] ∧ (role = 82 ∨ role = 84))

/-- The buffer and the expected length fit together: the buffer holds bytes; with fewer
than two of them the expected length is unset; from the second byte `L` on it is `L + 5`
and the buffer is shorter than that; a buffered packet starts with the sync byte. -/
def BufferOk (s : DataDecoder) : Prop :=
  (∀ x ∈ s.currentPacket, x < 256) ∧
  (s.currentPacket.length ≤ 1 → s.currentPacketLength = -1) ∧
  (2 ≤ s.currentPacket.length → ∃ L : Nat, L < 256 ∧ s.currentPacket[1]? = some L ∧
    s.currentPacketLength = (L : Int) + 5 ∧ s.currentPacket.length < L + 5) ∧
  (∀ x, s.currentPacket[0]? = some x → x = 1)

/-- The next byte brings the buffer to its expected length. -/
def CompletesPacket (s : DataDecoder) : Prop :=
  ((s.currentPacket.length + 1 : Nat) : Int) = s.currentPacketLength

/-- The byte at index 2 of a complete packet is the checksum of the bytes at indices
`4 .. len-2`. -/
def ChecksumOk (pkt : List Nat) : Prop :=
  pkt[2]? = some (checksum ((pkt.drop 4).take (pkt.length - 5)))

/-! ## Basic facts -/

theorem toUInt8_ofNat {b : Nat} (h : b < 256) : toUInt8 (Int.ofNat b) = b := by
  unfold toUInt8
  have : (Int.ofNat b) % 256 = Int.ofNat b := Int.emod_eq_of_lt (by simp) (by simpa using h)
  rw [this]
  rfl

theorem dropReady_currentPacket (s : DataDecoder) :
    (dropReady s).currentPacket = s.currentPacket := by
  unfold dropReady
  split <;> rfl

theorem dropReady_currentPacketLength (s : DataDecoder) :
    (dropReady s).currentPacketLength = s.currentPacketLength := by
  unfold dropReady
  split <;> rfl

theorem dropReady_allPacketsReceived (s : DataDecoder) :
    (dropReady s).allPacketsReceived = false := by
  unfold dropReady
  split
  · rfl
  · simpa using ‹¬ s.allPacketsReceived = true›

theorem dropReady_of_not_ready {s : DataDecoder} (h : s.allPacketsReceived = false) :
    dropReady s = s := by
  unfold dropReady
  simp [h]

theorem dropReady_idem (s : DataDecoder) : dropReady (dropReady s) = dropReady s :=
  dropReady_of_not_ready (dropReady_allPacketsReceived s)

/-- The method `newByteIn` in terms of `dropReady`. -/
theorem newByteIn_eq (past : Nat → Option Nat) (s : DataDecoder) (b : Int) :
    newByteIn past s b =
      if s.currentPacket.length = 0 ∧ b ≠ 1 then some (dropReady s)
      else if s.currentPacket.length + 1 = 2 then
        some ⟨b + 5, s.currentPacket ++ [toUInt8 b], (dropReady s).holds, false⟩
      else if ((s.currentPacket.length + 1 : Nat) : Int) = s.currentPacketLength then
        completePacket past
          ⟨s.currentPacketLength, s.currentPacket ++ [toUInt8 b], (dropReady s).holds, false⟩
      else some ⟨s.currentPacketLength, s.currentPacket ++ [toUInt8 b], (dropReady s).holds, false⟩ := by
  unfold newByteIn dropReady
  cases hr : s.allPacketsReceived <;> simp [hr]

/-- A byte other than the sync value arriving while the buffer is empty: only the
ready batch, if any, is dropped. -/
theorem newByteIn_idle (past : Nat → Option Nat) (s : DataDecoder) (b : Int)
    (hbuf : s.currentPacket = []) (hb : b ≠ 1) : newByteIn past s b = some (dropReady s) := by
  rw [newByteIn_eq, if_pos]
  exact ⟨by rw [hbuf]; rfl, hb⟩

/-- The sync byte arriving while the buffer is empty starts a packet. -/
theorem newByteIn_sync (past : Nat → Option Nat) (s : DataDecoder)
    (hbuf : s.currentPacket = []) (hlen : s.currentPacketLength ≠ 1) :
    newByteIn past s 1 = some ⟨s.currentPacketLength, [1], (dropReady s).holds, false⟩ := by
  rw [newByteIn_eq]
  simp [hbuf, toUInt8]
  intro h
  exact absurd h.symm hlen

/-- The second byte of a packet fixes the expected length. -/
theorem newByteIn_second (past : Nat → Option Nat) (s : DataDecoder) (a : Nat) (b : Int)
    (hbuf : s.currentPacket = [a]) :
    newByteIn past s b = some ⟨b + 5, [a, toUInt8 b], (dropReady s).holds, false⟩ := by
  rw [newByteIn_eq]
  simp [hbuf]

/-- A later byte that does not complete the packet is appended. -/
theorem newByteIn_push (past : Nat → Option Nat) (s : DataDecoder) (b : Int)
    (h2 : 2 ≤ s.currentPacket.length)
    (hlen : ((s.currentPacket.length + 1 : Nat) : Int) ≠ s.currentPacketLength) :
    newByteIn past s b =
      some ⟨s.currentPacketLength, s.currentPacket ++ [toUInt8 b], (dropReady s).holds, false⟩ := by
  rw [newByteIn_eq, if_neg, if_neg, if_neg hlen]
  · omega
  · intro h; omega

/-- A later byte that brings the buffer to the expected length completes the packet. -/
theorem newByteIn_complete (past : Nat → Option Nat) (s : DataDecoder) (b : Int)
    (h2 : 2 ≤ s.currentPacket.length)
    (hlen : ((s.currentPacket.length + 1 : Nat) : Int) = s.currentPacketLength) :
    newByteIn past s b = completePacket past
      ⟨s.currentPacketLength, s.currentPacket ++ [toUInt8 b], (dropReady s).holds, false⟩ := by
  rw [newByteIn_eq, if_neg, if_neg, if_pos hlen]
  · omega
  · intro h; omega

theorem feed_append (past : Nat → Option Nat) (s : DataDecoder) (xs ys : List Int) :
    feed past s (xs ++ ys) = (feed past s xs).bind (fun s1 => feed past s1 ys) := by
  induction xs generalizing s with
  | nil => rfl
  | cons x xs ih =>
    simp only [List.cons_append, feed]
    cases newByteIn past s x with
    | none => rfl
    | some s1 => exact ih s1

theorem feedBytes_append (past : Nat → Option Nat) (s : DataDecoder) (xs ys : List Nat) :
    feedBytes past s (xs ++ ys) = (feedBytes past s xs).bind (fun s1 => feedBytes past s1 ys) := by
  unfold feedBytes
  rw [List.map_append, feed_append]

theorem feedBytes_cons (past : Nat → Option Nat) (s : DataDecoder) (x : Nat) (xs : List Nat) :
    feedBytes past s (x :: xs) =
      (newByteIn past s (Int.ofNat x)).bind (fun s1 => feedBytes past s1 xs) := by
  unfold feedBytes
  simp only [List.map_cons, feed]
  cases newByteIn past s (Int.ofNat x) <;> rfl

theorem feedBytes_nil (past : Nat → Option Nat) (s : DataDecoder) :
    feedBytes past s [] = some s := rfl

/-- Bytes that do not complete the packet pile up in the buffer. -/
theorem feedBytes_accumulate (past : Nat → Option Nat) (c : Int) (h : List Hold)
    (bs : List Nat) : ∀ (p : List Nat), 2 ≤ p.length → (∀ x ∈ bs, x < 256) →
    ((p.length + bs.length : Nat) : Int) < c →
    feedBytes past ⟨c, p, h, false⟩ bs = some ⟨c, p ++ bs, h, false⟩ := by
  induction bs with
  | nil => intro p _ _ _; simp [feedBytes_nil]
  | cons b bs ih =>
    intro p hp hb hlt
    have hb1 : b < 256 := hb b (List.mem_cons_self _ _)
    simp only [List.length_cons] at hlt
    rw [feedBytes_cons, newByteIn_push past _ _ hp (by simp only []; omega)]
    simp only [Option.some_bind, toUInt8_ofNat hb1, dropReady_of_not_ready]
    rw [ih (p ++ [b]) (by simp; omega) (fun x hx => hb x (List.mem_cons_of_mem _ hx))
      (by simp only [List.length_append, List.length_singleton]; omega)]
    simp

/-! ## The payload loop -/

theorem readAt_append_left (past : Nat → Option Nat) (pre rest : List Nat) (x : Nat) (k : Nat)
    (hk : pre[k]? = some x) : readAt past (pre ++ rest) k = some x := by
  unfold readAt
  have hlt : k < pre.length := by
    by_contra hge
    rw [List.getElem?_eq_none (by omega)] at hk
    cases hk
  rw [List.getElem?_append_left hlt, hk]

theorem readAt_append_right (past : Nat → Option Nat) (pre rest : List Nat) (x : Nat) (k : Nat)
    (hk : rest[k]? = some x) : readAt past (pre ++ rest) (pre.length + k) = some x := by
  unfold readAt
  rw [List.getElem?_append_right (by omega)]
  simp [hk]

theorem readAt_of_getElem? (past : Nat → Option Nat) (pkt : List Nat) (x : Nat) (k : Nat)
    (hk : pkt[k]? = some x) : readAt past pkt k = some x := by
  unfold readAt
  rw [hk]

theorem position_eq {lo hi : Nat} (hlo : lo < 256) (hhi : hi < 256) :
    ((hi <<< 8) + lo) % 65536 = lo + 256 * hi := by
  rw [Nat.shiftLeft_eq]
  omega

theorem tripletBytes_length (ts : List (Nat × Nat × Nat)) :
    (tripletBytes ts).length = 3 * ts.length := by
  induction ts with
  | nil => rfl
  | cons t ts ih =>
    obtain ⟨a, b, c⟩ := t
    simp only [tripletBytes, List.length_cons, ih]
    omega

theorem tripletBytes_lt (ts : List (Nat × Nat × Nat)) (h : TripletsOk ts) :
    ∀ x ∈ tripletBytes ts, x < 256 := by
  induction ts with
  | nil => intro x hx; cases hx
  | cons t ts ih =>
    obtain ⟨a, b, c⟩ := t
    intro x hx
    have ht := h (a, b, c) (List.mem_cons_self _ _)
    simp only [tripletBytes, List.mem_cons] at hx
    rcases hx with rfl | rfl | rfl | hx
    · exact ht.1
    · exact ht.2.1
    · exact ht.2.2
    · exact ih (fun y hy => h y (List.mem_cons_of_mem _ hy)) x hx

/-- The loop never stops for lack of iterations: two bounds that both cover the
distance from `i` to the end give the same result. -/
theorem parseLoop_fuel (past : Nat → Option Nat) (pkt : List Nat) (cpl : Int) :
    ∀ (fuel fuel1 i : Nat) (holds : List Hold), cpl - 1 - i ≤ fuel → cpl - 1 - i ≤ fuel1 →
      parseLoop past pkt cpl fuel i holds = parseLoop past pkt cpl fuel1 i holds := by
  intro fuel
  induction fuel with
  | zero =>
    intro fuel1 i holds h0 _
    cases fuel1 with
    | zero => rfl
    | succ f => simp only [parseLoop]; rw [if_neg]; push_cast at h0; omega
  | succ f ih =>
    intro fuel1 i holds h0 h1
    cases fuel1 with
    | zero => simp only [parseLoop]; rw [if_neg]; push_cast at h1; omega
    | succ f1 =>
      simp only [parseLoop]
      split
      · cases readAt past pkt (i + 1) with
        | none => rfl
        | some hi =>
          cases readAt past pkt i with
          | none => rfl
          | some lo =>
            cases readAt past pkt (i + 2) with
            | none => rfl
            | some c =>
              simp only []
              apply ih
              · push_cast at h0 ⊢; omega
              · push_cast at h1 ⊢; omega
      · rfl

/-- At its call in `verifyAndParsePacket` (buffer at its expected length) the loop has all
the iterations it needs: a larger bound changes nothing. -/
theorem parseLoop_fuel_at_call (past : Nat → Option Nat) (pkt : List Nat) (fuel : Nat)
    (holds : List Hold) (h : pkt.length ≤ fuel) :
    parseLoop past pkt (pkt.length : Int) pkt.length 5 holds =
      parseLoop past pkt (pkt.length : Int) fuel 5 holds :=
  parseLoop_fuel past pkt _ _ _ _ _ (by push_cast; omega) (by push_cast; omega)

/-- On a payload of whole triplets the loop reads inside the buffer and appends one hold per
triplet, in order. -/
theorem parseLoop_triplets (past : Nat → Option Nat) (cpl : Int) (tail : List Nat) :
    ∀ (ts : List (Nat × Nat × Nat)) (pre : List Nat) (holds : List Hold) (fuel : Nat),
      TripletsOk ts → ts.length ≤ fuel →
      cpl - 1 = ((pre.length + 3 * ts.length : Nat) : Int) →
      parseLoop past (pre ++ tripletBytes ts ++ tail) cpl fuel pre.length holds =
        some (holds ++ ts.map holdOfTriplet) := by
  intro ts
  induction ts with
  | nil =>
    intro pre holds fuel _ _ hc
    cases fuel with
    | zero => simp [parseLoop]
    | succ f =>
      simp only [List.length_nil] at hc
      simp only [parseLoop]
      rw [if_neg (by rw [hc]; push_cast; omega)]
      simp
  | cons t ts ih =>
    intro pre holds fuel hok hfuel hc
    obtain ⟨lo, hi, c⟩ := t
    have ht := hok (lo, hi, c) (List.mem_cons_self _ _)
    cases fuel with
    | zero => simp at hfuel
    | succ f =>
      simp only [List.length_cons] at hfuel hc
      simp only [parseLoop]
      rw [if_pos (by rw [hc]; push_cast; omega)]
      have e : pre ++ tripletBytes ((lo, hi, c) :: ts) ++ tail
          = pre ++ (lo :: hi :: c :: (tripletBytes ts ++ tail)) := by
        simp [tripletBytes]
      have r0 := readAt_append_right past pre (lo :: hi :: c :: (tripletBytes ts ++ tail)) lo 0 rfl
      rw [Nat.add_zero] at r0
      have r1 := readAt_append_right past pre (lo :: hi :: c :: (tripletBytes ts ++ tail)) hi 1 rfl
      have r2 := readAt_append_right past pre (lo :: hi :: c :: (tripletBytes ts ++ tail)) c 2
        (by simp)
      rw [e, r1, r0, r2]
      simp only [position_eq ht.1 ht.2.1]
      have e2 : pre ++ (lo :: hi :: c :: (tripletBytes ts ++ tail))
          = (pre ++ [lo, hi, c]) ++ tripletBytes ts ++ tail := by simp
      have e3 : pre.length + 3 = (pre ++ [lo, hi, c]).length := by simp
      rw [e2, e3, ih (pre ++ [lo, hi, c]) _ f (fun y hy => hok y (List.mem_cons_of_mem _ hy))
        (by omega) (by rw [hc]; simp only [List.length_append, List.length_cons, List.length_nil]; congr 1; omega)]
      simp [holdOfTriplet]

/-- When a read past the end yields some byte, the loop runs to its end. -/
theorem parseLoop_isSome (past : Nat → Option Nat) (hpast : ∀ i, (past i).isSome = true)
    (pkt : List Nat) (cpl : Int) :
    ∀ (fuel i : Nat) (holds : List Hold), (parseLoop past pkt cpl fuel i holds).isSome = true := by
  have hread : ∀ k, ∃ v, readAt past pkt k = some v := by
    intro k
    unfold readAt
    cases pkt[k]? with
    | some b => exact ⟨b, rfl⟩
    | none =>
      obtain ⟨v, hv⟩ := Option.isSome_iff_exists.mp (hpast k)
      exact ⟨v % 256, by simp [hv]⟩
  intro fuel
  induction fuel with
  | zero => intro i holds; rfl
  | succ f ih =>
    intro i holds
    simp only [parseLoop]
    split
    · obtain ⟨a, ha⟩ := hread (i + 1)
      obtain ⟨b, hb⟩ := hread i
      obtain ⟨c, hc⟩ := hread (i + 2)
      rw [ha, hb, hc]
      exact ih _ _
    · rfl

/-! ## Whole packets -/

theorem checksum_lt (xs : List Nat) : checksum xs < 256 := by
  unfold checksum
  exact Nat.lt_succ_of_le Nat.and_le_right

/-- The bytes of a packet that is not yet complete pile up in the buffer. -/
theorem feedBytes_packet_front (past : Nat → Option Nat) (s : DataDecoder) (L : Nat)
    (bs : List Nat) (hbuf : s.currentPacket = []) (hlen : s.currentPacketLength ≠ 1)
    (hL : L < 256) (hbs : ∀ x ∈ bs, x < 256) (hk : bs.length < L + 3) :
    feedBytes past s (1 :: L :: bs) =
      some ⟨(L : Int) + 5, 1 :: L :: bs, (dropReady s).holds, false⟩ := by
  rw [feedBytes_cons]
  have h1 : Int.ofNat 1 = 1 := rfl
  rw [h1, newByteIn_sync past s hbuf hlen]
  simp only [Option.some_bind]
  rw [feedBytes_cons, newByteIn_second past _ 1 _ rfl]
  simp only [Option.some_bind, toUInt8_ofNat hL, dropReady_of_not_ready]
  have h2 : Int.ofNat L + 5 = (L : Int) + 5 := rfl
  rw [h2, feedBytes_accumulate past _ _ bs [1, L] (by simp) hbs
    (by simp only [List.length_cons, List.length_nil]; omega)]
  rfl

/-- The last byte of a packet hands the full buffer to `completePacket`. -/
theorem feedBytes_packet (past : Nat → Option Nat) (s : DataDecoder) (L : Nat)
    (rest : List Nat) (hbuf : s.currentPacket = []) (hlen : s.currentPacketLength ≠ 1)
    (hL : L < 256) (hrest : ∀ x ∈ rest, x < 256) (hk : rest.length = L + 3) :
    feedBytes past s (1 :: L :: rest) =
      completePacket past ⟨(L : Int) + 5, 1 :: L :: rest, (dropReady s).holds, false⟩ := by
  have hne : rest ≠ [] := by
    intro h
    rw [h] at hk
    simp at hk
  obtain ⟨front, z, rfl⟩ : ∃ front z, rest = front ++ [z] :=
    ⟨rest.dropLast, rest.getLast hne, (List.dropLast_append_getLast hne).symm⟩
  simp only [List.length_append, List.length_singleton] at hk
  have e : 1 :: L :: (front ++ [z]) = (1 :: L :: front) ++ [z] := by simp
  rw [e, feedBytes_append, feedBytes_packet_front past s L front hbuf hlen hL
    (fun x hx => hrest x (List.mem_append_left _ hx)) (by omega)]
  simp only [Option.some_bind]
  rw [feedBytes_cons]
  have hz : z < 256 := hrest z (List.mem_append_right _ (List.mem_singleton_self z))
  rw [newByteIn_complete past _ _ (by simp) (by simp only [List.length_cons]; push_cast; omega)]
  simp only [toUInt8_ofNat hz, dropReady_of_not_ready]
  cases completePacket past ⟨(L : Int) + 5, 1 :: L :: front ++ [z], (dropReady s).holds, false⟩ <;> rfl

/-- The range handed to `checksum` for a complete packet: the role byte and the payload,
without the last byte. -/
theorem subVector_packet (L a b c r role : Nat) (body : List Nat) (hbody : body.length = L) :
    subVector (a :: b :: c :: r :: role :: body) 4 ((L : Int) + 5 - 1) =
      some ((role :: body).take L) := by
  unfold subVector
  rw [if_pos]
  · have h0 : (L : Int) + 5 - 1 - 4 = (L : Int) := by omega
    have h1 : ((L : Int) + 5 - 1 - 4).toNat = L := by rw [h0]; exact Int.toNat_ofNat L
    have h2 : (4 : Int).toNat = 4 := rfl
    rw [h1, h2]
    rfl
  · simp only [List.length_cons, hbody]
    push_cast
    refine ⟨trivial, ?_, ?_⟩ <;> omega

/-- The method `verifyAndParsePacket` on a complete packet. -/
theorem verifyAndParsePacket_packet (past : Nat → Option Nat) (L a b c r role : Nat)
    (body : List Nat) (holds : List Hold) (ready : Bool) (hbody : body.length = L) :
    verifyAndParsePacket past ⟨(L : Int) + 5, a :: b :: c :: r :: role :: body, holds, ready⟩ =
      if checksum ((role :: body).take L) ≠ c then
        some (false, ⟨(L : Int) + 5, a :: b :: c :: r :: role :: body, holds, ready⟩)
      else if (holds.length = 0 ∧ (role == 84 || role == 82) = false) ∨
          (0 < holds.length ∧ (role == 84 || role == 82) = true) then
        some (false, ⟨(L : Int) + 5, a :: b :: c :: r :: role :: body, holds, ready⟩)
      else
        (parseLoop past (a :: b :: c :: r :: role :: body) ((L : Int) + 5) (L + 5) 5 holds).map
          (fun hs => (true, ⟨(L : Int) + 5, a :: b :: c :: r :: role :: body, hs, ready⟩)) := by
  unfold verifyAndParsePacket
  simp only [subVector_packet L a b c r role body hbody, isThisTheFirstPacket]
  rw [readAt_of_getElem? past _ c 2 (by simp), readAt_of_getElem? past _ role 4 (by simp)]
  simp only [List.length_cons, hbody]
  by_cases h1 : checksum ((role :: body).take L) ≠ c
  · simp only [if_pos h1]
  · simp only [if_neg h1]
    by_cases h2 : (holds.length = 0 ∧ (role == 84 || role == 82) = false) ∨
        (0 < holds.length ∧ (role == 84 || role == 82) = true)
    · simp only [if_pos h2]
    · simp only [if_neg h2]
      cases parseLoop past (a :: b :: c :: r :: role :: body) ((L : Int) + 5) (L + 5) 5 holds <;> rfl

/-- The block `completePacket` on a complete packet: a checksum or ordering failure drops
all holds, otherwise the payload loop runs and the role byte sets the ready flag; the
buffer is reset in every case. -/
theorem completePacket_packet (past : Nat → Option Nat) (L a b c r role : Nat)
    (body : List Nat) (holds : List Hold) (ready : Bool) (hbody : body.length = L) :
    completePacket past ⟨(L : Int) + 5, a :: b :: c :: r :: role :: body, holds, ready⟩ =
      if checksum ((role :: body).take L) ≠ c then some ⟨-1, [], [], ready⟩
      else if (holds.length = 0 ∧ (role == 84 || role == 82) = false) ∨
          (0 < holds.length ∧ (role == 84 || role == 82) = true) then
        some ⟨-1, [], [], ready⟩
      else
        (parseLoop past (a :: b :: c :: r :: role :: body) ((L : Int) + 5) (L + 5) 5 holds).map
          (fun hs => ⟨-1, [], hs, (role == 84 || role == 83)⟩) := by
  unfold completePacket
  rw [verifyAndParsePacket_packet past L a b c r role body holds ready hbody]
  by_cases h1 : checksum ((role :: body).take L) ≠ c
  · simp only [if_pos h1]
  · simp only [if_neg h1]
    by_cases h2 : (holds.length = 0 ∧ (role == 84 || role == 82) = false) ∨
        (0 < holds.length ∧ (role == 84 || role == 82) = true)
    · simp only [if_pos h2]
    · simp only [if_neg h2]
      cases parseLoop past (a :: b :: c :: r :: role :: body) ((L : Int) + 5) (L + 5) 5 holds with
      | none => rfl
      | some hs =>
        simp only [Option.map_some', isThisTheLastPacket]
        rw [readAt_of_getElem? past _ role 4 (by simp)]

/-! ## Checksum-valid frames -/

theorem frameOf_eq (role r t : Nat) (ts : List (Nat × Nat × Nat)) :
    frameOf role r t ts = 1 :: (3 * ts.length + 1) ::
      (checksum (role :: tripletBytes ts) :: r :: role :: (tripletBytes ts ++ [t])) := by
  simp [frameOf]

theorem frameOf_length (role r t : Nat) (ts : List (Nat × Nat × Nat)) :
    (frameOf role r t ts).length = 3 * ts.length + 6 := by
  simp [frameOf, tripletBytes_length]

theorem frameOf_rest_lt (role r t : Nat) (ts : List (Nat × Nat × Nat)) (hts : TripletsOk ts)
    (hrole : role < 256) (hr : r < 256) (ht : t < 256) :
    ∀ x ∈ checksum (role :: tripletBytes ts) :: r :: role :: (tripletBytes ts ++ [t]),
      x < 256 := by
  intro x hx
  simp only [List.mem_cons, List.mem_append, List.mem_singleton, List.not_mem_nil,
    or_false] at hx
  rcases hx with rfl | rfl | rfl | hx | rfl
  · exact checksum_lt _
  · exact hr
  · exact hrole
  · exact tripletBytes_lt ts hts x hx
  · exact ht

/-- What a checksum-valid frame of whole triplets does to a decoder with an empty buffer:
an ordering violation drops all holds, otherwise one hold per triplet is appended and the
role byte sets the ready flag. -/
theorem feedBytes_frameOf (past : Nat → Option Nat) (s : DataDecoder) (role r t : Nat)
    (ts : List (Nat × Nat × Nat)) (hbuf : s.currentPacket = [])
    (hlen : s.currentPacketLength ≠ 1) (hn : ts.length ≤ 84) (hts : TripletsOk ts)
    (hrole : role < 256) (hr : r < 256) (ht : t < 256) :
    feedBytes past s (frameOf role r t ts) =
      if ((dropReady s).holds.length = 0 ∧ (role == 84 || role == 82) = false) ∨
          (0 < (dropReady s).holds.length ∧ (role == 84 || role == 82) = true) then
        some ⟨-1, [], [], false⟩
      else
        some ⟨-1, [], (dropReady s).holds ++ ts.map holdOfTriplet, (role == 84 || role == 83)⟩ := by
  have hlen3 := tripletBytes_length ts
  rw [frameOf_eq, feedBytes_packet past s _ _ hbuf hlen (by omega)
    (frameOf_rest_lt role r t ts hts hrole hr ht)
    (by simp only [List.length_cons, List.length_append, List.length_nil, hlen3])]
  rw [completePacket_packet past _ _ _ _ _ _ _ _ _
    (by simp only [List.length_append, List.length_cons, List.length_nil, hlen3])]
  have htake : (role :: (tripletBytes ts ++ [t])).take (3 * ts.length + 1)
      = role :: tripletBytes ts := by
    rw [List.take_succ_cons, List.take_left' hlen3]
  rw [htake, if_neg (by simp)]
  split
  · rfl
  · have e : (1 :: (3 * ts.length + 1) :: checksum (role :: tripletBytes ts) :: r :: role ::
        (tripletBytes ts ++ [t]))
        = [1, 3 * ts.length + 1, checksum (role :: tripletBytes ts), r, role]
          ++ tripletBytes ts ++ [t] := by simp
    have e5 : (5 : Nat) =
        [1, 3 * ts.length + 1, checksum (role :: tripletBytes ts), r, role].length := rfl
    rw [e, e5, parseLoop_triplets past _ [t] ts _ _ _ hts (by omega)
      (by simp only [List.length_cons, List.length_nil]; push_cast; omega)]
    rfl

theorem orderViolation_iff (holds : List Hold) (role : Nat) :
    ((holds.length = 0 ∧ (role == 84 || role == 82) = false) ∨
      (0 < holds.length ∧ (role == 84 || role == 82) = true)) ↔ OrderViolation holds role := by
  unfold OrderViolation
  cases holds with
  | nil => simp; tauto
  | cons h hs => simp; tauto

/-- The method `verifyAndParsePacket` on a checksum-valid frame of whole triplets. -/
theorem verifyAndParsePacket_frameOf (past : Nat → Option Nat) (holds : List Hold)
    (ready : Bool) (role r t : Nat) (ts : List (Nat × Nat × Nat)) (hts : TripletsOk ts) :
    verifyAndParsePacket past
        ⟨((3 * ts.length + 1 : Nat) : Int) + 5, frameOf role r t ts, holds, ready⟩ =
      if (holds.length = 0 ∧ (role == 84 || role == 82) = false) ∨
          (0 < holds.length ∧ (role == 84 || role == 82) = true) then
        some (false, ⟨((3 * ts.length + 1 : Nat) : Int) + 5, frameOf role r t ts, holds, ready⟩)
      else
        some (true, ⟨((3 * ts.length + 1 : Nat) : Int) + 5, frameOf role r t ts,
          holds ++ ts.map holdOfTriplet, ready⟩) := by
  have hlen3 := tripletBytes_length ts
  rw [frameOf_eq, verifyAndParsePacket_packet past _ _ _ _ _ _ _ _ _
    (by simp only [List.length_append, List.length_cons, List.length_nil, hlen3])]
  have htake : (role :: (tripletBytes ts ++ [t])).take (3 * ts.length + 1)
      = role :: tripletBytes ts := by
    rw [List.take_succ_cons, List.take_left' hlen3]
  rw [htake, if_neg (by simp)]
  split
  · rfl
  · have e : (1 :: (3 * ts.length + 1) :: checksum (role :: tripletBytes ts) :: r :: role ::
        (tripletBytes ts ++ [t]))
        = [1, 3 * ts.length + 1, checksum (role :: tripletBytes ts), r, role]
          ++ tripletBytes ts ++ [t] := by simp
    have e5 : (5 : Nat) =
        [1, 3 * ts.length + 1, checksum (role :: tripletBytes ts), r, role].length := rfl
    rw [e, e5, parseLoop_triplets past _ [t] ts _ _ _ hts (by omega)
      (by simp only [List.length_cons, List.length_nil]; push_cast; omega)]
    rfl

/-- While a frame is under way the ready flag is down and the holds are those the decoder
had (after a ready batch was dropped). -/
theorem feedBytes_frameOf_take (past : Nat → Option Nat) (s : DataDecoder) (role r t : Nat)
    (ts : List (Nat × Nat × Nat)) (hbuf : s.currentPacket = [])
    (hlen : s.currentPacketLength ≠ 1) (hn : ts.length ≤ 84) (hts : TripletsOk ts)
    (hrole : role < 256) (hr : r < 256) (ht : t < 256) (k : Nat) (hk0 : 0 < k)
    (hk : k < (frameOf role r t ts).length) :
    ∃ s1, feedBytes past s ((frameOf role r t ts).take k) = some s1 ∧
      s1.allPacketsReceived = false ∧ s1.holds = (dropReady s).holds ∧
      s1.currentPacket = (frameOf role r t ts).take k := by
  rw [frameOf_length] at hk
  rw [frameOf_eq]
  obtain ⟨k1, rfl⟩ : ∃ k1, k = k1 + 1 := ⟨k - 1, by omega⟩
  rw [List.take_succ_cons]
  cases k1 with
  | zero =>
    refine ⟨⟨s.currentPacketLength, [1], (dropReady s).holds, false⟩, ?_, rfl, rfl, rfl⟩
    rw [List.take_zero, feedBytes_cons]
    have h1 : Int.ofNat 1 = 1 := rfl
    rw [h1, newByteIn_sync past s hbuf hlen]
    rfl
  | succ k2 =>
    rw [List.take_succ_cons]
    refine ⟨_, feedBytes_packet_front past s _ _ hbuf hlen (by omega) ?_ ?_, rfl, rfl, rfl⟩
    · intro x hx
      exact frameOf_rest_lt role r t ts hts hrole hr ht x (List.mem_of_mem_take hx)
    · rw [List.length_take]
      simp only [List.length_cons, List.length_append, List.length_nil,
        tripletBytes_length]
      omega

/-- The block `completePacket` resets the buffer whenever it returns. -/
theorem completePacket_reset (past : Nat → Option Nat) (s s1 : DataDecoder)
    (h : completePacket past s = some s1) :
    s1.currentPacket = [] ∧ s1.currentPacketLength = -1 := by
  unfold completePacket at h
  split at h
  · cases h
  · cases h
    exact ⟨rfl, rfl⟩
  · split at h
    · cases h
    · cases h
      exact ⟨rfl, rfl⟩

/-- When a read past the end yields some byte, `completePacket` returns on every complete
packet. -/
theorem completePacket_packet_isSome (past : Nat → Option Nat)
    (hpast : ∀ i, (past i).isSome = true) (L a b c r role : Nat)
    (body : List Nat) (holds : List Hold) (ready : Bool) (hbody : body.length = L) :
    ∃ s1, completePacket past
      ⟨(L : Int) + 5, a :: b :: c :: r :: role :: body, holds, ready⟩ = some s1 := by
  rw [completePacket_packet past L a b c r role body holds ready hbody]
  split
  · exact ⟨_, rfl⟩
  · split
    · exact ⟨_, rfl⟩
    · obtain ⟨hs, hhs⟩ := Option.isSome_iff_exists.mp
        (parseLoop_isSome past hpast (a :: b :: c :: r :: role :: body) ((L : Int) + 5)
          (L + 5) 5 holds)
      rw [hhs]
      exact ⟨_, rfl⟩

/-! ## Claims C1 to C4: round trip, groups, checksum and ordering failures -/

/-- Claim C1. Solo-frame round trip: for every list of `n ≤ 84` triplets of bytes, every
reserved byte `r` and terminator byte `t`, feeding the frame
`[1, 3n+1, c, r, 84, triplets..., t]` with `c` the checksum of `84` and the triplet bytes
to a freshly constructed decoder, byte by byte, leaves `getAllPacketsReceived()` true and
`getHolds()` equal, in order, to the holds of the triplets: position
`posLow + 256 * posHigh`, colour `scaledColorToFullColorV3(colorByte)`. No read leaves the
buffer, so this holds whatever lies past its end. -/
theorem C1_solo_frame_round_trip (past : Nat → Option Nat) (ts : List (Nat × Nat × Nat))
    (r t : Nat) (hn : ts.length ≤ 84) (hts : TripletsOk ts) (hr : r < 256) (ht : t < 256) :
    ∃ s, feedBytes past DataDecoder.init (frameOf 84 r t ts) = some s ∧
      getAllPacketsReceived s = true ∧ (getHolds s).1 = ts.map holdOfTriplet := by
  refine ⟨⟨-1, [], ts.map holdOfTriplet, true⟩, ?_, rfl, rfl⟩
  rw [feedBytes_frameOf past DataDecoder.init 84 r t ts rfl (by decide) hn hts (by decide) hr ht]
  rfl

set_option maxRecDepth 8000 in
/-- Witness of claim C1: the frame `[1,4,162,0,84,10,0,255,0]` yields the single hold at
position 10 with colour (255, 255, 255). -/
theorem C1_solo_frame_round_trip_witness :
    ∃ s, feedBytes (fun _ => none) DataDecoder.init [1, 4, 162, 0, 84, 10, 0, 255, 0] = some s ∧
      getAllPacketsReceived s = true ∧ (getHolds s).1 = [⟨10, 255, 255, 255⟩] :=
  C1_solo_frame_round_trip (fun _ => none) [(10, 0, 255)] 0 0 (by decide)
    (by intro x hx; simp only [List.mem_singleton] at hx; subst hx; decide)
    (by decide) (by decide)

/-- Claim C2. Multi-packet group: a checksum-valid first frame (role 82) with `n1 ≥ 1`
triplets followed by a checksum-valid last frame (role 83) with any number of triplets,
fed to a freshly constructed decoder: after every proper prefix of the two frames (so after every byte of the first
frame and after every byte but the final one of the last frame)
`getAllPacketsReceived()` is false; after the final byte it is true and `getHolds()` is
the holds of the first frame followed by those of the last frame. -/
theorem C2_multi_packet_group (past : Nat → Option Nat) (ts1 ts2 : List (Nat × Nat × Nat))
    (r1 t1 r2 t2 : Nat) (h1 : 0 < ts1.length) (hn1 : ts1.length ≤ 84) (hn2 : ts2.length ≤ 84)
    (hts1 : TripletsOk ts1) (hts2 : TripletsOk ts2)
    (hr1 : r1 < 256) (ht1 : t1 < 256) (hr2 : r2 < 256) (ht2 : t2 < 256) :
    (∀ k, k < (frameOf 82 r1 t1 ts1 ++ frameOf 83 r2 t2 ts2).length →
      ∃ s, feedBytes past DataDecoder.init
          ((frameOf 82 r1 t1 ts1 ++ frameOf 83 r2 t2 ts2).take k) = some s ∧
        getAllPacketsReceived s = false) ∧
    ∃ s, feedBytes past DataDecoder.init (frameOf 82 r1 t1 ts1 ++ frameOf 83 r2 t2 ts2) = some s ∧
      getAllPacketsReceived s = true ∧
      (getHolds s).1 = ts1.map holdOfTriplet ++ ts2.map holdOfTriplet := by
  have hfirst : feedBytes past DataDecoder.init (frameOf 82 r1 t1 ts1) =
      some ⟨-1, [], ts1.map holdOfTriplet, false⟩ := by
    rw [feedBytes_frameOf past DataDecoder.init 82 r1 t1 ts1 rfl (by decide) hn1 hts1
      (by decide) hr1 ht1]
    rfl
  have hne : 0 < (ts1.map holdOfTriplet).length := by simpa using h1
  constructor
  · intro k hk
    rw [List.length_append] at hk
    by_cases hk1 : k ≤ (frameOf 82 r1 t1 ts1).length
    · rw [List.take_append_of_le_length hk1]
      rcases Nat.eq_zero_or_pos k with rfl | hk0
      · exact ⟨DataDecoder.init, rfl, rfl⟩
      · rcases Nat.lt_or_ge k (frameOf 82 r1 t1 ts1).length with hlt | hge
        · obtain ⟨s1, hs1, hfl, _, _⟩ := feedBytes_frameOf_take past DataDecoder.init 82 r1 t1
            ts1 rfl (by decide) hn1 hts1 (by decide) hr1 ht1 k hk0 hlt
          exact ⟨s1, hs1, hfl⟩
        · rw [List.take_of_length_le hge, hfirst]
          exact ⟨_, rfl, rfl⟩
    · have hk1 : (frameOf 82 r1 t1 ts1).length < k := Nat.lt_of_not_le hk1
      rw [List.take_append_eq_append_take, List.take_of_length_le (Nat.le_of_lt hk1),
        feedBytes_append, hfirst]
      simp only [Option.some_bind]
      obtain ⟨s1, hs1, hfl, _, _⟩ := feedBytes_frameOf_take past
        ⟨-1, [], ts1.map holdOfTriplet, false⟩ 83 r2 t2 ts2 rfl (by simp) hn2 hts2
        (by decide) hr2 ht2 (k - (frameOf 82 r1 t1 ts1).length) (by omega) (by omega)
      exact ⟨s1, hs1, hfl⟩
  · refine ⟨⟨-1, [], ts1.map holdOfTriplet ++ ts2.map holdOfTriplet, true⟩, ?_, rfl, rfl⟩
    rw [feedBytes_append, hfirst]
    simp only [Option.some_bind]
    rw [feedBytes_frameOf past _ 83 r2 t2 ts2 rfl (by simp) hn2 hts2 (by decide) hr2 ht2]
    rw [if_neg]
    · rfl
    · simp only [dropReady_of_not_ready]
      intro h
      rcases h with ⟨h0, _⟩ | ⟨_, hf⟩
      · omega
      · exact absurd hf (by decide)

/-- Witness of claim C2: a first frame with the triplet `(10, 0, 255)` followed by a last
frame with the triplet `(11, 1, 3)`. -/
theorem C2_multi_packet_group_witness :
    (∀ k, k < (frameOf 82 0 0 [(10, 0, 255)] ++ frameOf 83 0 0 [(11, 1, 3)]).length →
      ∃ s, feedBytes (fun _ => none) DataDecoder.init
          ((frameOf 82 0 0 [(10, 0, 255)] ++ frameOf 83 0 0 [(11, 1, 3)]).take k) = some s ∧
        getAllPacketsReceived s = false) ∧
    ∃ s, feedBytes (fun _ => none) DataDecoder.init
        (frameOf 82 0 0 [(10, 0, 255)] ++ frameOf 83 0 0 [(11, 1, 3)]) = some s ∧
      getAllPacketsReceived s = true ∧
      (getHolds s).1 = [(10, 0, 255)].map holdOfTriplet ++ [(11, 1, 3)].map holdOfTriplet :=
  C2_multi_packet_group (fun _ => none) [(10, 0, 255)] [(11, 1, 3)] 0 0 0 0
    (by decide) (by decide) (by decide)
    (by intro x hx; simp only [List.mem_singleton] at hx; subst hx; decide)
    (by intro x hx; simp only [List.mem_singleton] at hx; subst hx; decide)
    (by decide) (by decide) (by decide) (by decide)

/-- Claim C3. Checksum failure discards the whole group: for every decoder with an empty
buffer (expected length unset, whatever holds it has), every frame `f` of `L + 5` bytes
that starts with `1`, has `L` as second byte and whose byte at index 2 differs from the
checksum of the bytes at indices `4 .. len-2`, feeding the whole frame leaves the holds
empty, `getAllPacketsReceived()` false, the buffer empty and the expected length unset. -/
theorem C3_checksum_failure (past : Nat → Option Nat) (s : DataDecoder) (L : Nat)
    (f : List Nat) (hbuf : s.currentPacket = []) (hunset : s.currentPacketLength = -1)
    (hf : ∀ x ∈ f, x < 256) (hlen : f.length = L + 5)
    (h0 : f[0]? = some 1) (h1 : f[1]? = some L)
    (hck : f[2]? ≠ some (checksum ((f.drop 4).take (f.length - 5)))) :
    ∃ s1, feedBytes past s f = some s1 ∧ (getHolds s1).1 = [] ∧
      getAllPacketsReceived s1 = false ∧ s1.currentPacket = [] ∧
      s1.currentPacketLength = -1 := by
  rcases f with _ | ⟨a, _ | ⟨b, _ | ⟨c, _ | ⟨r, _ | ⟨role, body⟩⟩⟩⟩⟩ <;>
    simp only [List.length_cons, List.length_nil] at hlen <;> try omega
  have hbody : body.length = L := by omega
  simp only [List.getElem?_cons_zero, List.getElem?_cons_succ, Option.some.injEq] at h0 h1 hck
  subst h0 h1
  have hb : b < 256 := hf b (by simp)
  refine ⟨⟨-1, [], [], false⟩, ?_, rfl, rfl, rfl, rfl⟩
  rw [feedBytes_packet past s b _ hbuf (by rw [hunset]; decide) hb
    (fun x hx => hf x (List.mem_cons_of_mem _ (List.mem_cons_of_mem _ hx)))
    (by simp only [List.length_cons]; omega)]
  rw [completePacket_packet past b 1 b c r role body _ _ hbody, if_pos]
  intro h
  apply hck
  rw [← h]
  simp only [List.length_cons, List.drop_succ_cons, List.drop_zero]
  have e : body.length + 1 + 1 + 1 + 1 + 1 - 5 = b := by omega
  rw [e]

/-- Witness of claim C3: the frame `[1,4,163,0,84,10,0,255,0]`, whose checksum byte
should be 162, fed to a decoder that holds one hold. -/
theorem C3_checksum_failure_witness :
    ∃ s1, feedBytes (fun _ => none) ⟨-1, [], [⟨7, 0, 0, 0⟩], false⟩
        [1, 4, 163, 0, 84, 10, 0, 255, 0] = some s1 ∧ (getHolds s1).1 = [] ∧
      getAllPacketsReceived s1 = false ∧ s1.currentPacket = [] ∧
      s1.currentPacketLength = -1 :=
  C3_checksum_failure (fun _ => none) ⟨-1, [], [⟨7, 0, 0, 0⟩], false⟩ 4
    [1, 4, 163, 0, 84, 10, 0, 255, 0] rfl rfl (by decide) rfl rfl rfl (by decide)

/-- Claim C4 fails as stated: "holds empty and `getAllPacketsReceived()` false" is not a
mark of rejection. On a fresh decoder the checksum-valid first packet `[1,1,173,0,82,0]`
(role 82, no triplets) breaks no ordering rule and is accepted, yet it leaves the holds
empty and the flag false. -/
theorem C4_empty_first_packet_looks_rejected :
    ¬ (∀ (past : Nat → Option Nat) (s : DataDecoder) (role r t : Nat)
        (ts : List (Nat × Nat × Nat)), s.currentPacket = [] → s.currentPacketLength = -1 →
        s.allPacketsReceived = false → ts.length ≤ 84 → TripletsOk ts →
        role < 256 → r < 256 → t < 256 →
        ∃ s1, feedBytes past s (frameOf role r t ts) = some s1 ∧
          (((getHolds s1).1 = [] ∧ getAllPacketsReceived s1 = false) ↔
            OrderViolation s.holds role)) := by
  intro h
  obtain ⟨s1, hs1, hiff⟩ := h (fun _ => none) DataDecoder.init 82 0 0 [] rfl rfl rfl
    (by decide) (by intro x hx; cases hx) (by decide) (by decide) (by decide)
  have e : feedBytes (fun _ => none) DataDecoder.init (frameOf 82 0 0 []) =
      some ⟨-1, [], [], false⟩ := by decide
  rw [e] at hs1
  cases hs1
  have hv : OrderViolation DataDecoder.init.holds 82 := hiff.mp ⟨rfl, rfl⟩
  rcases hv with ⟨_, h82, _⟩ | ⟨hne, _⟩
  · exact h82 rfl
  · exact hne rfl

/-- Claim C4, amended. Ordering rule: for every decoder with an empty buffer (expected
length unset) whose ready flag is false, and every checksum-valid frame of whole
triplets: after the frame the holds are empty and `getAllPacketsReceived()` is false
exactly when the ordering rule is broken (no holds and a role byte other than 82 and 84,
or holds and a role byte 82 or 84) or the frame is a first packet with role byte 82 and
no triplets arriving while there are no holds. A frame that breaks the ordering rule
leaves the holds empty and the flag false; a frame that does not has its decoded holds
appended after the existing holds, which are kept, and sets the flag when its role byte
is 84 or 83. -/
theorem C4_ordering_rule (past : Nat → Option Nat) (s : DataDecoder) (role r t : Nat)
    (ts : List (Nat × Nat × Nat)) (hbuf : s.currentPacket = [])
    (hunset : s.currentPacketLength = -1) (hready : s.allPacketsReceived = false)
    (hn : ts.length ≤ 84) (hts : TripletsOk ts)
    (hrole : role < 256) (hr : r < 256) (ht : t < 256) :
    ∃ s1, feedBytes past s (frameOf role r t ts) = some s1 ∧
      (((getHolds s1).1 = [] ∧ getAllPacketsReceived s1 = false) ↔
        (OrderViolation s.holds role ∨ (s.holds = [] ∧ role = 82 ∧ ts = []))) ∧
      (OrderViolation s.holds role →
        (getHolds s1).1 = [] ∧ getAllPacketsReceived s1 = false) ∧
      (¬ OrderViolation s.holds role →
        (getHolds s1).1 = s.holds ++ ts.map holdOfTriplet ∧
        getAllPacketsReceived s1 = (role == 84 || role == 83)) := by
  rw [feedBytes_frameOf past s role r t ts hbuf (by rw [hunset]; decide) hn hts hrole hr ht,
    dropReady_of_not_ready hready]
  by_cases hv : OrderViolation s.holds role
  · rw [if_pos ((orderViolation_iff s.holds role).mpr hv)]
    exact ⟨_, rfl, ⟨fun _ => Or.inl hv, fun _ => ⟨rfl, rfl⟩⟩, fun _ => ⟨rfl, rfl⟩,
      fun h => absurd hv h⟩
  · rw [if_neg (fun h => hv ((orderViolation_iff s.holds role).mp h))]
    refine ⟨_, rfl, ⟨?_, ?_⟩, fun h => absurd h hv, fun _ => ⟨rfl, rfl⟩⟩
    · rintro ⟨hnil, hflag⟩
      right
      have hnil1 : s.holds ++ ts.map holdOfTriplet = [] := hnil
      have hflag1 : (role == 84 || role == 83) = false := hflag
      obtain ⟨hh, hm⟩ := List.append_eq_nil.mp hnil1
      have h84 : role ≠ 84 := by
        intro h; rw [h] at hflag1; exact absurd hflag1 (by decide)
      have h82 : role = 82 := by
        by_contra hne
        exact hv (Or.inl ⟨hh, hne, h84⟩)
      exact ⟨hh, h82, List.map_eq_nil_iff.mp hm⟩
    · rintro (h | ⟨hh, h82, hts0⟩)
      · exact absurd h hv
      · subst h82 hts0
        constructor
        · show s.holds ++ [].map holdOfTriplet = []
          rw [hh]; rfl
        · rfl

/-- Witness of the amended claim C4: a solo frame (role 84) arriving at a decoder that
holds one hold breaks the ordering rule and clears the group. -/
theorem C4_ordering_rule_witness :
    ∃ s1, feedBytes (fun _ => none) ⟨-1, [], [⟨7, 0, 0, 0⟩], false⟩
        (frameOf 84 0 0 [(10, 0, 255)]) = some s1 ∧
      (((getHolds s1).1 = [] ∧ getAllPacketsReceived s1 = false) ↔
        (OrderViolation [⟨7, 0, 0, 0⟩] 84 ∨
          (([⟨7, 0, 0, 0⟩] : List Hold) = [] ∧ 84 = 82 ∧ [(10, 0, 255)] = []))) ∧
      (OrderViolation [⟨7, 0, 0, 0⟩] 84 →
        (getHolds s1).1 = [] ∧ getAllPacketsReceived s1 = false) ∧
      (¬ OrderViolation [⟨7, 0, 0, 0⟩] 84 →
        (getHolds s1).1 = [⟨7, 0, 0, 0⟩] ++ [(10, 0, 255)].map holdOfTriplet ∧
        getAllPacketsReceived s1 = (84 == 84 || 84 == 83)) :=
  C4_ordering_rule (fun _ => none) ⟨-1, [], [⟨7, 0, 0, 0⟩], false⟩ 84 0 0 [(10, 0, 255)]
    rfl rfl rfl (by decide)
    (by intro x hx; simp only [List.mem_singleton] at hx; subst hx; decide)
    (by decide) (by decide) (by decide)

/-! ## Claims C5 to C8: reads past the buffer, framing, idle bytes -/

set_option maxRecDepth 8000 in
/-- Claim C5, evaluated at the failing input `[1,2,161,0,84,10,0]` (`L = 2`, one payload
byte, checksum and ordering valid). After six bytes the buffer holds them and waits for
length 7. At the seventh byte the payload loop is entered at `i = 5` (`5 < 7 - 1`) and
reads index `i + 2 = 7`, which is not below the length 7 of the buffer: with reads past
the end treated as faults the run stops, and otherwise the colour of the decoded hold is
whatever byte lies behind the buffer. -/
theorem C5_read_past_buffer :
    feedBytes (fun _ => none) DataDecoder.init [1, 2, 161, 0, 84, 10] =
        some ⟨7, [1, 2, 161, 0, 84, 10], [], false⟩ ∧
      ((5 : Nat) : Int) < 7 - 1 ∧ ¬ (5 + 2 < [1, 2, 161, 0, 84, 10, 0].length) ∧
      readAt (fun _ => none) [1, 2, 161, 0, 84, 10, 0] (5 + 2) = none ∧
      feedBytes (fun _ => none) DataDecoder.init [1, 2, 161, 0, 84, 10, 0] = none ∧
      feedBytes (fun _ => some 0) DataDecoder.init [1, 2, 161, 0, 84, 10, 0] =
        some ⟨-1, [], [⟨10, 0, 0, 0⟩], true⟩ ∧
      feedBytes (fun _ => some 255) DataDecoder.init [1, 2, 161, 0, 84, 10, 0] =
        some ⟨-1, [], [⟨10, 255, 255, 255⟩], true⟩ := by
  refine ⟨by decide, by decide, by decide, by decide, by decide, by decide, by decide⟩

/-- Claim C6. Frame length and completion: for every decoder with an empty buffer
(expected length unset), every length byte `L` and every `L + 3` further bytes: after
`1`, `L` and `k < L + 3` of the further bytes the expected length is `L + 5` and the
buffer holds exactly the `2 + k` bytes fed; after all `L + 5` bytes the buffer is empty
and the expected length unset, whatever the outcome of the validation. The first part
holds for every `past`; the second whenever `newByteIn` returns, which it does when the
read past the buffer of claim C5 yields some byte `junk i`. -/
theorem C6_frame_length_and_completion (past : Nat → Option Nat) (junk : Nat → Nat)
    (s : DataDecoder) (L : Nat) (further : List Nat) (hbuf : s.currentPacket = [])
    (hunset : s.currentPacketLength = -1) (hL : L < 256)
    (hfur : ∀ x ∈ further, x < 256) (hlen : further.length = L + 3) :
    (∀ k, k < L + 3 → ∃ s1, feedBytes past s (1 :: L :: further.take k) = some s1 ∧
      s1.currentPacketLength = (L : Int) + 5 ∧
      s1.currentPacket = 1 :: L :: further.take k) ∧
    (∃ s1, feedBytes (fun i => some (junk i)) s (1 :: L :: further) = some s1 ∧
      s1.currentPacket = [] ∧ s1.currentPacketLength = -1) ∧
    (∀ s1, feedBytes past s (1 :: L :: further) = some s1 →
      s1.currentPacket = [] ∧ s1.currentPacketLength = -1) := by
  have hne : s.currentPacketLength ≠ 1 := by rw [hunset]; decide
  refine ⟨?_, ?_, ?_⟩
  · intro k hk
    refine ⟨_, feedBytes_packet_front past s L (further.take k) hbuf hne hL
      (fun x hx => hfur x (List.mem_of_mem_take hx)) ?_, rfl, rfl⟩
    rw [List.length_take]
    omega
  · rw [feedBytes_packet _ s L further hbuf hne hL hfur hlen]
    rcases further with _ | ⟨c, _ | ⟨r, _ | ⟨role, body⟩⟩⟩ <;>
      simp only [List.length_cons, List.length_nil] at hlen <;> try omega
    obtain ⟨s1, hs1⟩ := completePacket_packet_isSome (fun i => some (junk i)) (fun _ => rfl)
      L 1 L c r role body (dropReady s).holds false (by omega)
    exact ⟨s1, hs1, completePacket_reset _ _ _ hs1⟩
  · intro s1 hs1
    rw [feedBytes_packet past s L further hbuf hne hL hfur hlen] at hs1
    exact completePacket_reset _ _ _ hs1

/-- Witness of claim C6: the frame `[1,2,161,0,84,10,0]` fed to a fresh decoder. -/
theorem C6_frame_length_and_completion_witness :
    (∀ k, k < 2 + 3 → ∃ s1, feedBytes (fun _ => none) DataDecoder.init
        (1 :: 2 :: [161, 0, 84, 10, 0].take k) = some s1 ∧
      s1.currentPacketLength = ((2 : Nat) : Int) + 5 ∧
      s1.currentPacket = 1 :: 2 :: [161, 0, 84, 10, 0].take k) ∧
    (∃ s1, feedBytes (fun i => some ((fun _ => 0) i)) DataDecoder.init
        (1 :: 2 :: [161, 0, 84, 10, 0]) = some s1 ∧
      s1.currentPacket = [] ∧ s1.currentPacketLength = -1) ∧
    (∀ s1, feedBytes (fun _ => none) DataDecoder.init (1 :: 2 :: [161, 0, 84, 10, 0]) = some s1 →
      s1.currentPacket = [] ∧ s1.currentPacketLength = -1) :=
  C6_frame_length_and_completion (fun _ => none) (fun _ => 0) DataDecoder.init 2
    [161, 0, 84, 10, 0] rfl rfl (by decide) (by decide) rfl

/-- Claim C7 fails as stated: a byte other than the sync value, arriving while the buffer
is empty, is not without side effects when a batch is ready. From the state with the
ready flag set and one hold, the byte `0` clears the flag and the holds. -/
theorem C7_idle_byte_drops_ready_batch :
    ¬ (∀ (past : Nat → Option Nat) (s : DataDecoder) (b : Int),
        s.currentPacket = [] → b ≠ 1 → newByteIn past s b = some s) := by
  intro h
  have h1 := h (fun _ => none) ⟨-1, [], [⟨10, 255, 255, 255⟩], true⟩ 0 rfl (by decide)
  revert h1
  decide

/-- Claim C7, amended. For every decoder whose buffer is empty and every byte other than
`1`: when the ready flag is false `newByteIn` leaves the whole state unchanged; when the
ready flag is true it clears the flag and the holds and leaves the buffer and the
expected length unchanged. And for every byte, the sync value `1` included, a call of
`newByteIn` on a decoder with an empty buffer (expected length unset) and the ready flag
true leaves the holds empty and the flag false: the holds and the flag of a ready batch
are reset by the next call, whichever byte it carries. -/
theorem C7_idle_byte (past : Nat → Option Nat) (s : DataDecoder) (b : Int)
    (hbuf : s.currentPacket = []) :
    (b ≠ 1 → s.allPacketsReceived = false → newByteIn past s b = some s) ∧
    (b ≠ 1 → s.allPacketsReceived = true → newByteIn past s b =
      some ⟨s.currentPacketLength, s.currentPacket, [], false⟩) ∧
    (s.allPacketsReceived = true → s.currentPacketLength = -1 →
      ∃ s1, newByteIn past s b = some s1 ∧ (getHolds s1).1 = [] ∧
        getAllPacketsReceived s1 = false) := by
  have hdrop : s.allPacketsReceived = true →
      dropReady s = ⟨s.currentPacketLength, s.currentPacket, [], false⟩ := by
    intro h
    unfold dropReady
    rw [if_pos h]
  refine ⟨?_, ?_, ?_⟩
  · intro hb h
    rw [newByteIn_idle past s b hbuf hb, dropReady_of_not_ready h]
  · intro hb h
    rw [newByteIn_idle past s b hbuf hb, hdrop h]
  · intro h hunset
    by_cases hb : b = 1
    · subst hb
      rw [newByteIn_sync past s hbuf (by rw [hunset]; decide), hdrop h]
      exact ⟨_, rfl, rfl, rfl⟩
    · rw [newByteIn_idle past s b hbuf hb, hdrop h]
      exact ⟨_, rfl, rfl, rfl⟩

/-- Witness of the amended claim C7: the byte `0` at a decoder with a ready batch. -/
theorem C7_idle_byte_witness :
    ((0 : Int) ≠ 1 → (⟨-1, [], [⟨10, 255, 255, 255⟩], true⟩ : DataDecoder).allPacketsReceived
        = false →
      newByteIn (fun _ => none) ⟨-1, [], [⟨10, 255, 255, 255⟩], true⟩ 0 =
        some ⟨-1, [], [⟨10, 255, 255, 255⟩], true⟩) ∧
    ((0 : Int) ≠ 1 → (⟨-1, [], [⟨10, 255, 255, 255⟩], true⟩ : DataDecoder).allPacketsReceived
        = true →
      newByteIn (fun _ => none) ⟨-1, [], [⟨10, 255, 255, 255⟩], true⟩ 0 =
        some ⟨-1, [], [], false⟩) ∧
    ((⟨-1, [], [⟨10, 255, 255, 255⟩], true⟩ : DataDecoder).allPacketsReceived = true →
      (⟨-1, [], [⟨10, 255, 255, 255⟩], true⟩ : DataDecoder).currentPacketLength = -1 →
      ∃ s1, newByteIn (fun _ => none) ⟨-1, [], [⟨10, 255, 255, 255⟩], true⟩ 0 = some s1 ∧
        (getHolds s1).1 = [] ∧ getAllPacketsReceived s1 = false) :=
  C7_idle_byte (fun _ => none) ⟨-1, [], [⟨10, 255, 255, 255⟩], true⟩ 0 rfl

/-- Claim C8. Idle resync from a fresh decoder: for every sequence of bytes (of `int`
values, even) none of which equals `1`, after every byte of the sequence
`getAllPacketsReceived()` is false, `getHolds()` is empty, the buffer is empty and the
expected length is unset. -/
theorem C8_idle_resync (past : Nat → Option Nat) (bytes : List Int)
    (hbytes : ∀ b ∈ bytes, b ≠ 1) (k : Nat) :
    ∃ s, feed past DataDecoder.init (bytes.take k) = some s ∧
      getAllPacketsReceived s = false ∧ (getHolds s).1 = [] ∧
      s.currentPacket = [] ∧ s.currentPacketLength = -1 := by
  have key : ∀ (xs : List Int), (∀ b ∈ xs, b ≠ 1) →
      feed past DataDecoder.init xs = some DataDecoder.init := by
    intro xs
    induction xs with
    | nil => intro _; rfl
    | cons x xs ih =>
      intro hx
      simp only [feed]
      rw [newByteIn_idle past DataDecoder.init x rfl (hx x (List.mem_cons_self _ _))]
      exact ih (fun b hb => hx b (List.mem_cons_of_mem _ hb))
  exact ⟨DataDecoder.init, key _ (fun b hb => hbytes b (List.mem_of_mem_take hb)),
    rfl, rfl, rfl, rfl⟩

/-- Witness of claim C8: the bytes `0, 2, 255, 84` fed to a fresh decoder, all four. -/
theorem C8_idle_resync_witness :
    ∃ s, feed (fun _ => none) DataDecoder.init (([0, 2, 255, 84] : List Int).take 4) = some s ∧
      getAllPacketsReceived s = false ∧ (getHolds s).1 = [] ∧
      s.currentPacket = [] ∧ s.currentPacketLength = -1 :=
  C8_idle_resync (fun _ => none) [0, 2, 255, 84] (by decide) 4

/-! ## Reachable states -/

/-- In every state reached from a fresh decoder, whatever `int` values were fed, a buffer
with fewer than two bytes goes with an unset expected length. -/
theorem feed_unset (past : Nat → Option Nat) (bytes : List Int) :
    ∀ (s s1 : DataDecoder), (s.currentPacket.length ≤ 1 → s.currentPacketLength = -1) →
      feed past s bytes = some s1 → s1.currentPacket.length ≤ 1 →
      s1.currentPacketLength = -1 := by
  induction bytes with
  | nil =>
    intro s s1 hs h
    cases h
    exact hs
  | cons b bs ih =>
    intro s s1 hs h
    simp only [feed] at h
    cases hn : newByteIn past s b with
    | none => rw [hn] at h; cases h
    | some s2 =>
      rw [hn] at h
      refine ih s2 s1 ?_ h
      rw [newByteIn_eq] at hn
      split at hn
      · cases hn
        rw [dropReady_currentPacket, dropReady_currentPacketLength]
        exact hs
      · split at hn
        · cases hn
          intro h2
          simp only [List.length_append, List.length_singleton] at h2
          omega
        · split at hn
          · intro _
            exact (completePacket_reset past _ _ hn).2
          · cases hn
            intro h2
            simp only [List.length_append, List.length_singleton] at h2
            exact hs (by omega)

/-- An empty buffer goes with an unset expected length in every state a fresh decoder can
reach: the states with an empty buffer and expected length `-1`, over which claims C3, C4
and C6 are proved, include every such state. -/
theorem feed_init_unset (past : Nat → Option Nat) (bytes : List Int) (s : DataDecoder)
    (h : feed past DataDecoder.init bytes = some s) (hbuf : s.currentPacket = []) :
    s.currentPacketLength = -1 :=
  feed_unset past bytes DataDecoder.init s (fun _ => rfl) h (by rw [hbuf]; exact Nat.zero_le 1)

theorem bufferOk_init : BufferOk DataDecoder.init := by
  refine ⟨?_, fun _ => rfl, ?_, ?_⟩
  · intro x hx; cases hx
  · intro h; simp [DataDecoder.init] at h
  · intro x hx; simp [DataDecoder.init] at hx

/-- One byte keeps the buffer and the expected length fitting together. -/
theorem bufferOk_newByteIn (past : Nat → Option Nat) (s s1 : DataDecoder) (b : Nat)
    (hs : BufferOk s) (hb : b < 256) (h : newByteIn past s (Int.ofNat b) = some s1) :
    BufferOk s1 := by
  obtain ⟨hbytes, hshort, hlong, hsync⟩ := hs
  have hmem : ∀ x ∈ s.currentPacket ++ [b], x < 256 := by
    intro x hx
    rcases List.mem_append.mp hx with hx | hx
    · exact hbytes x hx
    · rw [List.mem_singleton.mp hx]; exact hb
  rw [newByteIn_eq, toUInt8_ofNat hb] at h
  split at h
  · cases h
    refine ⟨?_, ?_, ?_, ?_⟩
    · rw [dropReady_currentPacket]; exact hbytes
    · rw [dropReady_currentPacket, dropReady_currentPacketLength]; exact hshort
    · rw [dropReady_currentPacket, dropReady_currentPacketLength]; exact hlong
    · rw [dropReady_currentPacket]; exact hsync
  · rename_i hidle
    split at h
    · rename_i h2
      cases h
      obtain ⟨a, ha⟩ : ∃ a, s.currentPacket = [a] := by
        match hp : s.currentPacket with
        | [] => rw [hp] at h2; simp at h2
        | [a] => exact ⟨a, rfl⟩
        | _ :: _ :: _ => rw [hp] at h2; simp at h2
      refine ⟨hmem, ?_, ?_, ?_⟩
      · intro h3; simp only [ha, List.length_append, List.length_singleton] at h3; omega
      · intro _
        exact ⟨b, hb, by simp [ha], rfl, by simp [ha]⟩
      · intro x hx
        apply hsync x
        simpa [ha] using hx
    · rename_i h2
      split at h
      · obtain ⟨e1, e2⟩ := completePacket_reset past _ _ h
        refine ⟨?_, fun _ => e2, ?_, ?_⟩
        · rw [e1]; intro x hx; cases hx
        · intro h3; rw [e1] at h3; simp at h3
        · intro x hx; rw [e1] at hx; simp at hx
      · rename_i h3
        cases h
        by_cases h0 : s.currentPacket.length = 0
        · have hb1 : Int.ofNat b = 1 := by
            by_contra hne
            exact hidle ⟨h0, hne⟩
          have hb2 : b = 1 := by
            have : ((b : Nat) : Int) = ((1 : Nat) : Int) := hb1
            exact_mod_cast this
          have hp : s.currentPacket = [] := List.length_eq_zero.mp h0
          refine ⟨hmem, ?_, ?_, ?_⟩
          · intro _; exact hshort (by omega)
          · intro h4; simp [hp] at h4
          · intro x hx; simp [hp, hb2] at hx; exact hx.symm
        · have h4 : 2 ≤ s.currentPacket.length := by omega
          obtain ⟨L, hL, hL1, hL2, hL3⟩ := hlong h4
          refine ⟨hmem, ?_, ?_, ?_⟩
          · intro h5; simp only [List.length_append, List.length_singleton] at h5; omega
          · intro _
            refine ⟨L, hL, ?_, hL2, ?_⟩
            · rw [List.getElem?_append_left (by omega)]; exact hL1
            · simp only [List.length_append, List.length_singleton]
              have : ((s.currentPacket.length + 1 : Nat) : Int) ≠ (L : Int) + 5 := by
                rw [← hL2]; exact h3
              push_cast at this
              omega
          · intro x hx
            rw [List.getElem?_append_left (by omega)] at hx
            exact hsync x hx

theorem exists_cons5 (l : List Nat) (h : 5 ≤ l.length) :
    ∃ a b c r role body, l = a :: b :: c :: r :: role :: body := by
  rcases l with _ | ⟨a, _ | ⟨b, _ | ⟨c, _ | ⟨r, _ | ⟨role, body⟩⟩⟩⟩⟩ <;>
    simp only [List.length_cons, List.length_nil] at h <;> try omega
  exact ⟨a, b, c, r, role, body, rfl⟩

/-- One byte fed to a decoder whose buffer and expected length fit together: the call
returns (a read past the buffer yielding the byte `junk i`), and the ready flag is set
exactly when the byte completes a packet that passes the checksum and the ordering check
and whose role byte is 84 or 83. -/
theorem newByteIn_ready_iff (junk : Nat → Nat) (s0 : DataDecoder) (b : Nat)
    (hs : BufferOk s0) (hb : b < 256) :
    ∃ s1, newByteIn (fun i => some (junk i)) s0 (Int.ofNat b) = some s1 ∧
      (s1.allPacketsReceived = true ↔
        CompletesPacket s0 ∧ ChecksumOk (s0.currentPacket ++ [b]) ∧
        ∃ role, (s0.currentPacket ++ [b])[4]? = some role ∧
          ¬ OrderViolation (dropReady s0).holds role ∧ (role = 84 ∨ role = 83)) := by
  obtain ⟨hbytes, hshort, hlong, hsync⟩ := hs
  rw [newByteIn_eq, toUInt8_ofNat hb]
  by_cases hc : CompletesPacket s0
  · have hc1 : ((s0.currentPacket.length + 1 : Nat) : Int) = s0.currentPacketLength := hc
    have h2 : 2 ≤ s0.currentPacket.length := by
      by_contra hlt
      have := hshort (by omega)
      rw [this] at hc1
      omega
    obtain ⟨L, hL, hL1, hL2, hL3⟩ := hlong h2
    have hlen : (s0.currentPacket ++ [b]).length = L + 5 := by
      simp only [List.length_append, List.length_singleton]
      rw [hL2] at hc1
      omega
    obtain ⟨a, b1, c, r, role, body, hp⟩ := exists_cons5 (s0.currentPacket ++ [b]) (by omega)
    have hb1 : b1 = L := by
      have h1 : (s0.currentPacket ++ [b])[1]? = some L := by
        rw [List.getElem?_append_left (by omega)]; exact hL1
      rw [hp] at h1
      simpa using h1
    subst hb1
    have hbody : body.length = b1 := by
      rw [hp] at hlen
      simp only [List.length_cons] at hlen
      omega
    rw [if_neg (by omega), if_neg (by omega), if_pos hc1, hp, hL2,
      completePacket_packet _ b1 a b1 c r role body _ _ hbody]
    have hck : ChecksumOk (a :: b1 :: c :: r :: role :: body) ↔
        checksum ((role :: body).take b1) = c := by
      unfold ChecksumOk
      simp only [List.length_cons, List.getElem?_cons_succ, List.getElem?_cons_zero,
        List.drop_succ_cons, List.drop_zero, Option.some.injEq]
      have e : body.length + 1 + 1 + 1 + 1 + 1 - 5 = b1 := by omega
      rw [e]
      exact eq_comm
    have hrole : ∀ x, (a :: b1 :: c :: r :: role :: body)[4]? = some x ↔ role = x := by
      intro x
      simp
    by_cases h1 : checksum ((role :: body).take b1) ≠ c
    · rw [if_pos h1]
      refine ⟨_, rfl, ?_⟩
      constructor
      · intro h; cases h
      · rintro ⟨_, hk, _⟩
        exact absurd (hck.mp hk) h1
    · rw [if_neg h1]
      by_cases hv : OrderViolation (dropReady s0).holds role
      · rw [if_pos ((orderViolation_iff _ _).mpr hv)]
        refine ⟨_, rfl, ?_⟩
        constructor
        · intro h; cases h
        · rintro ⟨_, _, x, hx, hnv, _⟩
          rw [← (hrole x).mp hx] at hnv
          exact absurd hv hnv
      · rw [if_neg (fun h => hv ((orderViolation_iff _ _).mp h))]
        obtain ⟨hs1, hhs⟩ := Option.isSome_iff_exists.mp
          (parseLoop_isSome (fun i => some (junk i)) (fun _ => rfl)
            (a :: b1 :: c :: r :: role :: body) ((b1 : Int) + 5) (b1 + 5) 5
            (dropReady s0).holds)
        rw [hhs]
        refine ⟨_, rfl, ?_⟩
        simp only [Option.map_some', Bool.or_eq_true, beq_iff_eq]
        constructor
        · intro h
          exact ⟨hc, hck.mpr (not_not.mp h1), role, (hrole role).mpr rfl, hv, h⟩
        · rintro ⟨_, _, x, hx, _, h⟩
          rw [(hrole x).mp hx]
          exact h
  · have hc1 : ¬ ((s0.currentPacket.length + 1 : Nat) : Int) = s0.currentPacketLength := hc
    rw [if_neg hc1]
    split
    · refine ⟨_, rfl, ?_⟩
      rw [dropReady_allPacketsReceived]
      constructor
      · intro h; cases h
      · rintro ⟨h, _⟩; exact absurd h hc
    · split
      · refine ⟨_, rfl, ?_⟩
        constructor
        · intro h; cases h
        · rintro ⟨h, _⟩; exact absurd h hc
      · refine ⟨_, rfl, ?_⟩
        constructor
        · intro h; cases h
        · rintro ⟨h, _⟩; exact absurd h hc

/-- Every sequence of bytes takes a fresh decoder to a state whose buffer and expected
length fit together (a read past the buffer yielding the byte `junk i`). -/
theorem feedBytes_bufferOk (junk : Nat → Nat) (bytes : List Nat) :
    ∀ s, BufferOk s → (∀ x ∈ bytes, x < 256) →
      ∃ s1, feedBytes (fun i => some (junk i)) s bytes = some s1 ∧ BufferOk s1 := by
  induction bytes with
  | nil => intro s hs _; exact ⟨s, rfl, hs⟩
  | cons b bs ih =>
    intro s hs hb
    have hb0 : b < 256 := hb b (List.mem_cons_self _ _)
    obtain ⟨s1, hs1, _⟩ := newByteIn_ready_iff junk s b hs hb0
    obtain ⟨s2, hs2, hok⟩ := ih s1 (bufferOk_newByteIn _ s s1 b hs hb0 hs1)
      (fun x hx => hb x (List.mem_cons_of_mem _ hx))
    refine ⟨s2, ?_, hok⟩
    rw [feedBytes_cons, hs1]
    exact hs2

/-! ## Claims C9 and C10: the ready flag, reading the holds -/

/-- Claim C9. Batch-ready characterisation: for every sequence of bytes followed by a
final byte `b`, fed to a freshly constructed decoder, `getAllPacketsReceived()` is true
afterwards exactly when `b` brought the buffer to its expected length (`s0` is the state
before `b`), the completed packet passes the checksum check and the ordering check, and
its role byte at index 4 is 84 or 83. A read past the buffer (claim C5) yields the byte
`junk i`, whatever that is. -/
theorem C9_batch_ready_iff (junk : Nat → Nat) (bytes : List Nat) (b : Nat)
    (hbytes : ∀ x ∈ bytes, x < 256) (hb : b < 256) :
    ∃ s0 s1, feedBytes (fun i => some (junk i)) DataDecoder.init bytes = some s0 ∧
      feedBytes (fun i => some (junk i)) DataDecoder.init (bytes ++ [b]) = some s1 ∧
      (getAllPacketsReceived s1 = true ↔
        CompletesPacket s0 ∧ ChecksumOk (s0.currentPacket ++ [b]) ∧
        ∃ role, (s0.currentPacket ++ [b])[4]? = some role ∧
          ¬ OrderViolation (dropReady s0).holds role ∧ (role = 84 ∨ role = 83)) := by
  obtain ⟨s0, hs0, hok⟩ := feedBytes_bufferOk junk bytes DataDecoder.init bufferOk_init hbytes
  obtain ⟨s1, hs1, hiff⟩ := newByteIn_ready_iff junk s0 b hok hb
  refine ⟨s0, s1, hs0, ?_, hiff⟩
  rw [feedBytes_append, hs0]
  simp only [Option.some_bind]
  rw [feedBytes_cons, hs1]
  rfl

/-- Witness of claim C9: the solo frame `[1,4,162,0,84,10,0,255,0]`, last byte apart. -/
theorem C9_batch_ready_iff_witness :
    ∃ s0 s1, feedBytes (fun i => some ((fun _ => 0) i)) DataDecoder.init
        [1, 4, 162, 0, 84, 10, 0, 255] = some s0 ∧
      feedBytes (fun i => some ((fun _ => 0) i)) DataDecoder.init
        ([1, 4, 162, 0, 84, 10, 0, 255] ++ [0]) = some s1 ∧
      (getAllPacketsReceived s1 = true ↔
        CompletesPacket s0 ∧ ChecksumOk (s0.currentPacket ++ [0]) ∧
        ∃ role, (s0.currentPacket ++ [0])[4]? = some role ∧
          ¬ OrderViolation (dropReady s0).holds role ∧ (role = 84 ∨ role = 83)) :=
  C9_batch_ready_iff (fun _ => 0) [1, 4, 162, 0, 84, 10, 0, 255] 0 (by decide) (by decide)

/-- Claim C10 fails as stated: `getHolds` returns a copy and clears nothing, so the
second of two calls returns the holds again, not an empty list. -/
theorem C10_second_getHolds_not_empty :
    ¬ (∀ s : DataDecoder, s.allPacketsReceived = true → s.holds ≠ [] →
        (getHolds s).1 = s.holds ∧ (getHolds (getHolds s).2).1 = []) := by
  intro h
  have h1 := (h ⟨-1, [], [⟨10, 255, 255, 255⟩], true⟩ rfl (by decide)).2
  revert h1
  decide

/-- Claim C10, amended. For every decoder state, in particular one in which the batch is
ready with a non-empty holds list, two calls of `getHolds` with no `newByteIn` call in
between both return the accumulated holds, and the decoder is unchanged by them. -/
theorem C10_getHolds_twice (s : DataDecoder) :
    (getHolds s).1 = s.holds ∧ (getHolds (getHolds s).2).1 = s.holds ∧
      (getHolds (getHolds s).2).2 = s :=
  ⟨rfl, rfl, rfl⟩

/-! ## Claims C11 and C17: the colour decode -/

set_option maxRecDepth 8000 in
/-- The double computation `v / 7. * 255.`, truncated, on the eight values of a 3-bit
field. -/
theorem scale7 : ∀ v : Fin 8,
    Dbl.toInt (Dbl.mul (Dbl.div (Dbl.ofInt v.val) (Dbl.ofInt 7)) (Dbl.ofInt 255)) =
      Int.ofNat (v.val * 255 / 7) := by
  decide

set_option maxRecDepth 8000 in
/-- The double computation `v / 3. * 255.`, truncated, on the four values of a 2-bit
field. -/
theorem scale3 : ∀ v : Fin 4,
    Dbl.toInt (Dbl.mul (Dbl.div (Dbl.ofInt v.val) (Dbl.ofInt 3)) (Dbl.ofInt 255)) =
      Int.ofNat (v.val * 255 / 3) := by
  decide

set_option maxRecDepth 8000 in
/-- The masks and shifts of `scaledColorToFullColorV3` extract the three bit fields. -/
theorem colourFields : ∀ b : Fin 256,
    ((b.val &&& 0b00000011) >>> 0 = b.val &&& 3 ∧ b.val &&& 3 < 4) ∧
    ((b.val &&& 0b00011100) >>> 2 = (b.val >>> 2) &&& 7 ∧ (b.val >>> 2) &&& 7 < 8) ∧
    ((b.val &&& 0b11100000) >>> 5 = (b.val >>> 5) &&& 7 ∧ (b.val >>> 5) &&& 7 < 8) := by
  decide

/-- The colour decode of a byte, by integer arithmetic. -/
theorem scaledColor_eq (b : Nat) (hb : b < 256) :
    scaledColorToFullColorV3 b =
      (Int.ofNat (((b >>> 5) &&& 7) * 255 / 7), Int.ofNat (((b >>> 2) &&& 7) * 255 / 7),
        Int.ofNat ((b &&& 3) * 255 / 3)) := by
  obtain ⟨⟨e0, h0⟩, ⟨e1, h1⟩, ⟨e2, h2⟩⟩ := colourFields ⟨b, hb⟩
  simp only at e0 h0 e1 h1 e2 h2
  unfold scaledColorToFullColorV3
  simp only [e0, e1, e2]
  rw [scale3 ⟨b &&& 3, h0⟩, scale7 ⟨(b >>> 2) &&& 7, h1⟩, scale7 ⟨(b >>> 5) &&& 7, h2⟩]

theorem scale7_values : ∀ v : Fin 8,
    Int.ofNat (v.val * 255 / 7) ∈ ([0, 36, 72, 109, 145, 182, 218, 255] : List Int) := by
  decide

theorem scale3_values : ∀ v : Fin 4,
    Int.ofNat (v.val * 255 / 3) ∈ ([0, 85, 170, 255] : List Int) := by
  decide

/-- Claim C11. Colour decode equals truncating integer scaling: for every byte `b`,
`scaledColorToFullColorV3(b)` returns red `((b >> 5) & 7) * 255 / 7`, green
`((b >> 2) & 7) * 255 / 7` and blue `(b & 3) * 255 / 3`, each with truncating integer
division; red and green lie in `{0,36,72,109,145,182,218,255}` and blue in
`{0,85,170,255}`. -/
theorem C11_colour_truncating (b : Nat) (hb : b < 256) :
    scaledColorToFullColorV3 b =
      (Int.ofNat (((b >>> 5) &&& 7) * 255 / 7), Int.ofNat (((b >>> 2) &&& 7) * 255 / 7),
        Int.ofNat ((b &&& 3) * 255 / 3)) ∧
    (scaledColorToFullColorV3 b).1 ∈ ([0, 36, 72, 109, 145, 182, 218, 255] : List Int) ∧
    (scaledColorToFullColorV3 b).2.1 ∈ ([0, 36, 72, 109, 145, 182, 218, 255] : List Int) ∧
    (scaledColorToFullColorV3 b).2.2 ∈ ([0, 85, 170, 255] : List Int) := by
  obtain ⟨⟨_, h0⟩, ⟨_, h1⟩, ⟨_, h2⟩⟩ := colourFields ⟨b, hb⟩
  simp only at h0 h1 h2
  rw [scaledColor_eq b hb]
  exact ⟨rfl, scale7_values ⟨(b >>> 5) &&& 7, h2⟩, scale7_values ⟨(b >>> 2) &&& 7, h1⟩,
    scale3_values ⟨b &&& 3, h0⟩⟩

/-- Witness of claim C11: `decode(0xFF) = (255,255,255)` and
`decode(0b10100001) = (182, 0, 85)`. -/
theorem C11_colour_truncating_witness :
    scaledColorToFullColorV3 0xFF = (255, 255, 255) ∧
      scaledColorToFullColorV3 0b10100001 = (182, 0, 85) :=
  ⟨(C11_colour_truncating 0xFF (by decide)).1, (C11_colour_truncating 0b10100001 (by decide)).1⟩

/-- Claim C17 fails as stated: the decode does not round to nearest. For the byte
`0b01000000` the red field is 2, `2 / 7 * 255 = 72.857...` rounds to 73, and the code
returns 72. -/
theorem C17_rounding_fails :
    ¬ (∀ b : Nat, b < 256 → scaledColorToFullColorV3 b =
        (round ((((b >>> 5) &&& 7 : Nat) : ℚ) / 7 * 255),
          round ((((b >>> 2) &&& 7 : Nat) : ℚ) / 7 * 255),
          round (((b &&& 3 : Nat) : ℚ) / 3 * 255))) := by
  intro h
  have h1 := congrArg Prod.fst (h 0b01000000 (by decide))
  rw [scaledColor_eq 0b01000000 (by decide)] at h1
  have h2 : round ((((0b01000000 >>> 5) &&& 7 : Nat) : ℚ) / 7 * 255) = 73 := by
    have e : (((0b01000000 >>> 5) &&& 7 : Nat) : ℚ) = 2 := by
      have : ((0b01000000 >>> 5) &&& 7 : Nat) = 2 := by decide
      rw [this]
      norm_num
    rw [e, round_eq, Int.floor_eq_iff]
    constructor <;> norm_num
  rw [h2] at h1
  revert h1
  decide

/-- The exact value `v / d * 255`, rounded down. -/
theorem floor_scale (v d : Nat) : ⌊((v : Nat) : ℚ) / (d : ℚ) * 255⌋ = Int.ofNat (v * 255 / d) := by
  have e : ((v : Nat) : ℚ) / (d : ℚ) * 255 = ((v * 255 : Nat) : ℚ) / ((d : Nat) : ℚ) := by
    push_cast
    ring
  rw [e, Rat.floor_natCast_div_natCast]
  rfl

/-- Claim C17, amended. For every byte `b`, `scaledColorToFullColorV3(b)` returns red
`⌊((b >> 5) & 7) / 7 * 255⌋`, green `⌊((b >> 2) & 7) / 7 * 255⌋` and blue
`⌊(b & 3) / 3 * 255⌋`: the exact rational value rounded down, not to nearest. -/
theorem C17_colour_floor (b : Nat) (hb : b < 256) :
    scaledColorToFullColorV3 b =
      (⌊(((b >>> 5) &&& 7 : Nat) : ℚ) / 7 * 255⌋, ⌊(((b >>> 2) &&& 7 : Nat) : ℚ) / 7 * 255⌋,
        ⌊((b &&& 3 : Nat) : ℚ) / 3 * 255⌋) := by
  have h7 := floor_scale ((b >>> 5) &&& 7) 7
  have h7g := floor_scale ((b >>> 2) &&& 7) 7
  have h3 := floor_scale (b &&& 3) 3
  push_cast at h7 h7g h3
  rw [scaledColor_eq b hb, ← h7, ← h7g, ← h3]

/-- Witness of the amended claim C17 at the byte `0b01000000`. -/
theorem C17_colour_floor_witness :
    scaledColorToFullColorV3 0b01000000 =
      (⌊(((0b01000000 >>> 5) &&& 7 : Nat) : ℚ) / 7 * 255⌋,
        ⌊(((0b01000000 >>> 2) &&& 7 : Nat) : ℚ) / 7 * 255⌋,
        ⌊((0b01000000 &&& 3 : Nat) : ℚ) / 3 * 255⌋) :=
  C17_colour_floor 0b01000000 (by decide)

/-! ## Claim C12: the checksum -/

theorem and_255 (x : Nat) : x &&& 255 = x % 256 :=
  Nat.and_pow_two_sub_one_eq_mod x 8

set_option maxRecDepth 8000 in
theorem complement_byte : ∀ i : Fin 256, (i.val ^^^ 0xFFFFFFFF) &&& 255 = 255 - i.val := by
  decide

/-- The loop of `checksum` sums modulo 256. -/
theorem checksum_loop (xs : List Nat) : ∀ a : Nat,
    xs.foldl (fun i byteValue => (i + byteValue) &&& 255) a = (a + xs.sum) % 256 ∨
      (xs = [] ∧ xs.foldl (fun i byteValue => (i + byteValue) &&& 255) a = a) := by
  induction xs with
  | nil => intro a; exact Or.inr ⟨rfl, rfl⟩
  | cons x xs ih =>
    intro a
    left
    simp only [List.foldl_cons, List.sum_cons]
    rw [and_255]
    rcases ih ((a + x) % 256) with h | ⟨hnil, h⟩
    · rw [h]; omega
    · rw [h, hnil]; simp only [List.sum_nil]; omega

theorem checksum_eq (xs : List Nat) : checksum xs = 255 - xs.sum % 256 := by
  unfold checksum
  have h : xs.foldl (fun i byteValue => (i + byteValue) &&& 255) 0 = xs.sum % 256 := by
    rcases checksum_loop xs 0 with h | ⟨hnil, h⟩
    · rw [h, Nat.zero_add]
    · rw [h, hnil]; rfl
  simp only [h]
  exact complement_byte ⟨xs.sum % 256, Nat.mod_lt _ (by decide)⟩

theorem checksumOk_cons (L a b c r role : Nat) (body : List Nat) (hbody : body.length = L) :
    ChecksumOk (a :: b :: c :: r :: role :: body) ↔ checksum ((role :: body).take L) = c := by
  unfold ChecksumOk
  simp only [List.length_cons, List.getElem?_cons_succ, List.getElem?_cons_zero,
    List.drop_succ_cons, List.drop_zero, Option.some.injEq]
  have e : body.length + 1 + 1 + 1 + 1 + 1 - 5 = L := by omega
  rw [e]
  exact eq_comm

/-- Claim C12. The method `checksum` is the one's complement of the byte sum modulo 256:
for every list `xs`, the empty one included, `checksum(xs) = (~(sum mod 256)) & 0xFF
= 255 - (sum mod 256)`, so `(sum + checksum(xs)) mod 256 = 255`; and on a completed
packet of `L + 5` bytes `verifyAndParsePacket` hands `checksum` exactly the bytes at
indices `4 .. len-2` and compares the result with the byte at index 2: on a mismatch it
returns `false` at once, on a match it goes on to the ordering check and the payload
loop. -/
theorem C12_checksum (past : Nat → Option Nat) (xs : List Nat) (L : Nat) (pkt : List Nat)
    (holds : List Hold) (ready : Bool) (hlen : pkt.length = L + 5) :
    checksum xs = ((xs.sum % 256) ^^^ 0xFFFFFFFF) &&& 255 ∧
    checksum xs = 255 - xs.sum % 256 ∧
    (xs.sum + checksum xs) % 256 = 255 ∧
    subVector pkt 4 ((L : Int) + 5 - 1) = some ((pkt.drop 4).take (pkt.length - 5)) ∧
    (¬ ChecksumOk pkt → verifyAndParsePacket past ⟨(L : Int) + 5, pkt, holds, ready⟩ =
      some (false, ⟨(L : Int) + 5, pkt, holds, ready⟩)) ∧
    (ChecksumOk pkt → ∃ role, pkt[4]? = some role ∧
      verifyAndParsePacket past ⟨(L : Int) + 5, pkt, holds, ready⟩ =
        if (holds.length = 0 ∧ (role == 84 || role == 82) = false) ∨
            (0 < holds.length ∧ (role == 84 || role == 82) = true) then
          some (false, ⟨(L : Int) + 5, pkt, holds, ready⟩)
        else
          (parseLoop past pkt ((L : Int) + 5) (L + 5) 5 holds).map
            (fun hs => (true, ⟨(L : Int) + 5, pkt, hs, ready⟩))) := by
  have h1 := checksum_eq xs
  refine ⟨?_, h1, by rw [h1]; omega, ?_, ?_, ?_⟩
  · rw [h1]
    exact (complement_byte ⟨xs.sum % 256, Nat.mod_lt _ (by decide)⟩).symm
  · obtain ⟨a, b, c, r, role, body, rfl⟩ := exists_cons5 pkt (by omega)
    have hbody : body.length = L := by simp only [List.length_cons] at hlen; omega
    rw [subVector_packet L a b c r role body hbody]
    simp only [List.length_cons, List.drop_succ_cons, List.drop_zero]
    have e : body.length + 1 + 1 + 1 + 1 + 1 - 5 = L := by omega
    rw [e]
  · intro hck
    obtain ⟨a, b, c, r, role, body, rfl⟩ := exists_cons5 pkt (by omega)
    have hbody : body.length = L := by simp only [List.length_cons] at hlen; omega
    rw [verifyAndParsePacket_packet past L a b c r role body holds ready hbody, if_pos]
    exact fun h => hck ((checksumOk_cons L a b c r role body hbody).mpr h)
  · intro hck
    obtain ⟨a, b, c, r, role, body, rfl⟩ := exists_cons5 pkt (by omega)
    have hbody : body.length = L := by simp only [List.length_cons] at hlen; omega
    refine ⟨role, by simp, ?_⟩
    rw [verifyAndParsePacket_packet past L a b c r role body holds ready hbody, if_neg]
    exact fun h => h ((checksumOk_cons L a b c r role body hbody).mp hck)

/-- Witness of claim C12: the bytes `84, 10, 0, 255` and the packet
`[1,4,162,0,84,10,0,255,0]`. -/
theorem C12_checksum_witness :
    checksum [84, 10, 0, 255] = ((([84, 10, 0, 255] : List Nat).sum % 256) ^^^ 0xFFFFFFFF) &&& 255 ∧
    checksum [84, 10, 0, 255] = 255 - ([84, 10, 0, 255] : List Nat).sum % 256 ∧
    (([84, 10, 0, 255] : List Nat).sum + checksum [84, 10, 0, 255]) % 256 = 255 ∧
    subVector [1, 4, 162, 0, 84, 10, 0, 255, 0] 4 (((4 : Nat) : Int) + 5 - 1) =
      some (([1, 4, 162, 0, 84, 10, 0, 255, 0].drop 4).take
        ([1, 4, 162, 0, 84, 10, 0, 255, 0].length - 5)) ∧
    (¬ ChecksumOk [1, 4, 162, 0, 84, 10, 0, 255, 0] →
      verifyAndParsePacket (fun _ => none)
        ⟨((4 : Nat) : Int) + 5, [1, 4, 162, 0, 84, 10, 0, 255, 0], [], false⟩ =
      some (false, ⟨((4 : Nat) : Int) + 5, [1, 4, 162, 0, 84, 10, 0, 255, 0], [], false⟩)) ∧
    (ChecksumOk [1, 4, 162, 0, 84, 10, 0, 255, 0] → ∃ role,
      ([1, 4, 162, 0, 84, 10, 0, 255, 0] : List Nat)[4]? = some role ∧
      verifyAndParsePacket (fun _ => none)
        ⟨((4 : Nat) : Int) + 5, [1, 4, 162, 0, 84, 10, 0, 255, 0], [], false⟩ =
        if (([] : List Hold).length = 0 ∧ (role == 84 || role == 82) = false) ∨
            (0 < ([] : List Hold).length ∧ (role == 84 || role == 82) = true) then
          some (false, ⟨((4 : Nat) : Int) + 5, [1, 4, 162, 0, 84, 10, 0, 255, 0], [], false⟩)
        else
          (parseLoop (fun _ => none) [1, 4, 162, 0, 84, 10, 0, 255, 0] (((4 : Nat) : Int) + 5)
            (4 + 5) 5 []).map
            (fun hs => (true, ⟨((4 : Nat) : Int) + 5, [1, 4, 162, 0, 84, 10, 0, 255, 0], hs,
              false⟩))) :=
  C12_checksum (fun _ => none) [84, 10, 0, 255] 4 [1, 4, 162, 0, 84, 10, 0, 255, 0] [] false rfl

/-! ## Claims C13 and C14: bytes the decoder does not look at -/

theorem readAt_congr (past : Nat → Option Nat) (p1 p2 : List Nat) (k : Nat)
    (h : p1[k]? = p2[k]?) : readAt past p1 k = readAt past p2 k := by
  unfold readAt
  rw [h]

theorem drop_take_congr (p1 p2 : List Nat) (n m : Nat)
    (h : ∀ k, n ≤ k → k < n + m → p1[k]? = p2[k]?) :
    (p1.drop n).take m = (p2.drop n).take m := by
  apply List.ext_getElem?
  intro k
  simp only [List.getElem?_take, List.getElem?_drop]
  split
  · exact h (n + k) (by omega) (by omega)
  · rfl

/-- The payload loop gives the same result on two buffers that agree at the indices it
reads: `i + 3j`, `i + 3j + 1`, `i + 3j + 2` for the iterations `j` it makes. -/
theorem parseLoop_congr (past : Nat → Option Nat) (p1 p2 : List Nat) (cpl : Int) :
    ∀ (fuel i : Nat) (holds : List Hold),
      (∀ j d : Nat, ((i + 3 * j : Nat) : Int) < cpl - 1 → d < 3 →
        p1[i + 3 * j + d]? = p2[i + 3 * j + d]?) →
      parseLoop past p1 cpl fuel i holds = parseLoop past p2 cpl fuel i holds := by
  intro fuel
  induction fuel with
  | zero => intro i holds _; rfl
  | succ f ih =>
    intro i holds h
    simp only [parseLoop]
    by_cases hc : (i : Int) < cpl - 1
    · rw [if_pos hc, if_pos hc]
      have h0 := h 0 0 (by simpa using hc) (by decide)
      have h1 := h 0 1 (by simpa using hc) (by decide)
      have h2 := h 0 2 (by simpa using hc) (by decide)
      simp only [Nat.mul_zero, Nat.add_zero] at h0 h1 h2
      rw [readAt_congr past p1 p2 (i + 1) h1, readAt_congr past p1 p2 i h0,
        readAt_congr past p1 p2 (i + 2) h2]
      cases readAt past p2 (i + 1) with
      | none => rfl
      | some hi =>
        cases readAt past p2 i with
        | none => rfl
        | some lo =>
          cases readAt past p2 (i + 2) with
          | none => rfl
          | some c =>
            simp only []
            apply ih
            intro j d hj hd
            have e : i + 3 + 3 * j = i + 3 * (j + 1) := by omega
            rw [e] at hj ⊢
            exact h (j + 1) d hj hd
    · rw [if_neg hc, if_neg hc]

/-- The block `completePacket` on a buffer of `L + 5` bytes, by its indices. -/
theorem completePacket_of_length (past : Nat → Option Nat) (L : Nat) (pkt : List Nat)
    (holds : List Hold) (ready : Bool) (role : Nat) (hlen : pkt.length = L + 5)
    (hrole : pkt[4]? = some role) :
    completePacket past ⟨(L : Int) + 5, pkt, holds, ready⟩ =
      if pkt[2]? ≠ some (checksum ((pkt.drop 4).take (pkt.length - 5))) then
        some ⟨-1, [], [], ready⟩
      else if (holds.length = 0 ∧ (role == 84 || role == 82) = false) ∨
          (0 < holds.length ∧ (role == 84 || role == 82) = true) then
        some ⟨-1, [], [], ready⟩
      else
        (parseLoop past pkt ((L : Int) + 5) (L + 5) 5 holds).map
          (fun hs => ⟨-1, [], hs, (role == 84 || role == 83)⟩) := by
  obtain ⟨a, b, c, r, role1, body, rfl⟩ := exists_cons5 pkt (by omega)
  have hbody : body.length = L := by simp only [List.length_cons] at hlen; omega
  have hr : role1 = role := by simpa using hrole
  subst hr
  rw [completePacket_packet past L a b c r role1 body holds ready hbody]
  have hck := checksumOk_cons L a b c r role1 body hbody
  unfold ChecksumOk at hck
  by_cases h1 : checksum ((role1 :: body).take L) ≠ c
  · have hA := fun h => h1 (hck.mp h)
    rw [if_pos h1, if_pos hA]
  · have hA := hck.mpr (not_not.mp h1)
    rw [if_neg h1, if_neg (not_not.mpr hA)]

/-- Two frames of `L + 5` bytes that agree at index 0, 1, 2, 4, on the checksum range
`4 .. len-2` and at the indices the payload loop reads have the same effect. -/
theorem feedBytes_congr (past : Nat → Option Nat) (s : DataDecoder) (L : Nat)
    (f1 f2 : List Nat) (hbuf : s.currentPacket = []) (hunset : s.currentPacketLength = -1)
    (hL : L < 256) (hf1 : ∀ x ∈ f1, x < 256) (hf2 : ∀ x ∈ f2, x < 256)
    (hlen1 : f1.length = L + 5) (hlen2 : f2.length = L + 5)
    (h0 : f1[0]? = some 1) (h1 : f1[1]? = some L)
    (hsame : ∀ k, (k < 3 ∨ (4 ≤ k ∧ k < L + 4) ∨
      ∃ j d : Nat, ((5 + 3 * j : Nat) : Int) < (L : Int) + 5 - 1 ∧ d < 3 ∧ k = 5 + 3 * j + d) →
      f1[k]? = f2[k]?) (hsame4 : f1[4]? = f2[4]?) :
    feedBytes past s f1 = feedBytes past s f2 := by
  have hne : s.currentPacketLength ≠ 1 := by rw [hunset]; decide
  have g0 : f2[0]? = some 1 := by rw [← hsame 0 (Or.inl (by decide))]; exact h0
  have g1 : f2[1]? = some L := by rw [← hsame 1 (Or.inl (by decide))]; exact h1
  obtain ⟨role, hrole⟩ : ∃ role, f1[4]? = some role :=
    ⟨f1[4], List.getElem?_eq_getElem (by omega)⟩
  have e1 : feedBytes past s f1 = completePacket past ⟨(L : Int) + 5, f1, (dropReady s).holds, false⟩ := by
    rcases f1 with _ | ⟨a, _ | ⟨b, rest⟩⟩ <;>
      simp only [List.length_cons, List.length_nil] at hlen1 <;> try omega
    simp only [List.getElem?_cons_zero, List.getElem?_cons_succ, Option.some.injEq] at h0 h1
    subst h0 h1
    exact feedBytes_packet past s b rest hbuf hne hL
      (fun x hx => hf1 x (List.mem_cons_of_mem _ (List.mem_cons_of_mem _ hx))) (by omega)
  have e2 : feedBytes past s f2 = completePacket past ⟨(L : Int) + 5, f2, (dropReady s).holds, false⟩ := by
    rcases f2 with _ | ⟨a, _ | ⟨b, rest⟩⟩ <;>
      simp only [List.length_cons, List.length_nil] at hlen2 <;> try omega
    simp only [List.getElem?_cons_zero, List.getElem?_cons_succ, Option.some.injEq] at g0 g1
    subst g0 g1
    exact feedBytes_packet past s b rest hbuf hne hL
      (fun x hx => hf2 x (List.mem_cons_of_mem _ (List.mem_cons_of_mem _ hx))) (by omega)
  rw [e1, e2, completePacket_of_length past L f1 _ _ role hlen1 hrole,
    completePacket_of_length past L f2 _ _ role hlen2 (by rw [← hsame4]; exact hrole)]
  have c1 : (f1.drop 4).take (f1.length - 5) = (f2.drop 4).take (f2.length - 5) := by
    rw [hlen1, hlen2]
    apply drop_take_congr
    intro k hk1 hk2
    exact hsame k (Or.inr (Or.inl ⟨hk1, by omega⟩))
  have c2 : parseLoop past f1 ((L : Int) + 5) (L + 5) 5 (dropReady s).holds =
      parseLoop past f2 ((L : Int) + 5) (L + 5) 5 (dropReady s).holds := by
    apply parseLoop_congr
    intro j d hj hd
    exact hsame _ (Or.inr (Or.inr ⟨j, d, hj, hd, rfl⟩))
  rw [c1, c2, hsame 2 (Or.inl (by decide))]

/-- A frame of `L + 5` bytes fed to a decoder with an empty buffer always ends with the
buffer reset, when a read past the buffer yields some byte. -/
theorem feedBytes_frame_isSome (junk : Nat → Nat) (s : DataDecoder) (L : Nat) (f : List Nat)
    (hbuf : s.currentPacket = []) (hunset : s.currentPacketLength = -1) (hL : L < 256)
    (hf : ∀ x ∈ f, x < 256) (hlen : f.length = L + 5)
    (h0 : f[0]? = some 1) (h1 : f[1]? = some L) :
    ∃ s1, feedBytes (fun i => some (junk i)) s f = some s1 ∧ s1.currentPacket = [] ∧
      s1.currentPacketLength = -1 := by
  rcases f with _ | ⟨a, _ | ⟨b, _ | ⟨c, _ | ⟨r, _ | ⟨role, body⟩⟩⟩⟩⟩ <;>
    simp only [List.length_cons, List.length_nil] at hlen <;> try omega
  simp only [List.getElem?_cons_zero, List.getElem?_cons_succ, Option.some.injEq] at h0 h1
  subst h0 h1
  rw [feedBytes_packet _ s b _ hbuf (by rw [hunset]; decide) hL
    (fun x hx => hf x (List.mem_cons_of_mem _ (List.mem_cons_of_mem _ hx)))
    (by simp only [List.length_cons]; omega)]
  obtain ⟨s1, hs1⟩ := completePacket_packet_isSome (fun i => some (junk i)) (fun _ => rfl)
    b 1 b c r role body (dropReady s).holds false (by omega)
  exact ⟨s1, hs1, completePacket_reset _ _ _ hs1⟩

set_option maxRecDepth 8000 in
/-- Claim C13 fails as stated: the last byte of a frame can decide the result. With
`L = 3` the payload has two bytes, and the loop reads the last byte of the frame as the
colour byte: the frames `[1,3,161,0,84,10,0,0]` and `[1,3,161,0,84,10,0,255]` give a
black and a white hold. With `L = 0` the last byte of the frame is the role byte at
index 4: `[1,0,255,0,84]` sets the ready flag and `[1,0,255,0,82]` does not. -/
theorem C13_last_byte_is_read :
    feedBytes (fun _ => none) DataDecoder.init [1, 3, 161, 0, 84, 10, 0, 0] =
        some ⟨-1, [], [⟨10, 0, 0, 0⟩], true⟩ ∧
      feedBytes (fun _ => none) DataDecoder.init [1, 3, 161, 0, 84, 10, 0, 255] =
        some ⟨-1, [], [⟨10, 255, 255, 255⟩], true⟩ ∧
      feedBytes (fun _ => none) DataDecoder.init [1, 0, 255, 0, 84] =
        some ⟨-1, [], [], true⟩ ∧
      feedBytes (fun _ => none) DataDecoder.init [1, 0, 255, 0, 82] =
        some ⟨-1, [], [], false⟩ := by
  refine ⟨by decide, by decide, by decide, by decide⟩

/-- Claim C13, amended. For every decoder with an empty buffer (expected length unset),
every length byte `L` with `L mod 3 = 1` (the payload is a whole number of triplets) and
every two frames of `L + 5` bytes that start with `1`, carry `L` and differ only in their
last byte (index `L + 4`), feeding either frame gives the same result, whatever lies
behind the buffer; and the result is a state with an empty buffer. -/
theorem C13_terminator_unused (past : Nat → Option Nat) (junk : Nat → Nat) (s : DataDecoder)
    (L : Nat) (f1 f2 : List Nat) (hbuf : s.currentPacket = [])
    (hunset : s.currentPacketLength = -1) (hL : L < 256) (hL3 : L % 3 = 1)
    (hf1 : ∀ x ∈ f1, x < 256) (hf2 : ∀ x ∈ f2, x < 256)
    (hlen1 : f1.length = L + 5) (hlen2 : f2.length = L + 5)
    (h0 : f1[0]? = some 1) (h1 : f1[1]? = some L)
    (hsame : ∀ k, k ≠ L + 4 → f1[k]? = f2[k]?) :
    feedBytes past s f1 = feedBytes past s f2 ∧
    ∃ s1, feedBytes (fun i => some (junk i)) s f1 = some s1 ∧
      feedBytes (fun i => some (junk i)) s f2 = some s1 ∧ s1.currentPacket = [] := by
  have key : ∀ p : Nat → Option Nat, feedBytes p s f1 = feedBytes p s f2 := by
    intro p
    apply feedBytes_congr p s L f1 f2 hbuf hunset hL hf1 hf2 hlen1 hlen2 h0 h1
    · intro k hk
      apply hsame
      rcases hk with hk | hk | ⟨j, d, hj, hd, rfl⟩
      · omega
      · omega
      · push_cast at hj
        omega
    · exact hsame 4 (by omega)
  refine ⟨key past, ?_⟩
  obtain ⟨s1, hs1, hb1, _⟩ := feedBytes_frame_isSome junk s L f1 hbuf hunset hL hf1 hlen1 h0 h1
  exact ⟨s1, hs1, by rw [← key]; exact hs1, hb1⟩

/-- Witness of the amended claim C13: two solo frames with one triplet that differ in
the last byte. -/
theorem C13_terminator_unused_witness :
    feedBytes (fun _ => none) DataDecoder.init [1, 4, 162, 0, 84, 10, 0, 255, 0] =
        feedBytes (fun _ => none) DataDecoder.init [1, 4, 162, 0, 84, 10, 0, 255, 9] ∧
    ∃ s1, feedBytes (fun i => some ((fun _ => 0) i)) DataDecoder.init
        [1, 4, 162, 0, 84, 10, 0, 255, 0] = some s1 ∧
      feedBytes (fun i => some ((fun _ => 0) i)) DataDecoder.init
        [1, 4, 162, 0, 84, 10, 0, 255, 9] = some s1 ∧ s1.currentPacket = [] :=
  C13_terminator_unused (fun _ => none) (fun _ => 0) DataDecoder.init 4
    [1, 4, 162, 0, 84, 10, 0, 255, 0] [1, 4, 162, 0, 84, 10, 0, 255, 9] rfl rfl
    (by decide) (by decide) (by decide) (by decide) rfl rfl rfl rfl
    (by
      intro k hk
      rcases Nat.lt_or_ge k 8 with hlow | hhigh
      · interval_cases k <;> rfl
      · obtain ⟨j, rfl⟩ : ∃ j, k = j + 9 := ⟨k - 9, by omega⟩
        rfl)

/-- Claim C14. The reserved byte is unused: for every decoder with an empty buffer
(expected length unset), every length byte `L` and every two frames of `L + 5` bytes that
start with `1`, carry `L` and differ only in the byte at index 3, feeding either frame
gives the same result, whatever lies behind the buffer; and the result is a state with an
empty buffer. -/
theorem C14_reserved_byte_unused (past : Nat → Option Nat) (junk : Nat → Nat)
    (s : DataDecoder) (L : Nat) (f1 f2 : List Nat) (hbuf : s.currentPacket = [])
    (hunset : s.currentPacketLength = -1) (hL : L < 256)
    (hf1 : ∀ x ∈ f1, x < 256) (hf2 : ∀ x ∈ f2, x < 256)
    (hlen1 : f1.length = L + 5) (hlen2 : f2.length = L + 5)
    (h0 : f1[0]? = some 1) (h1 : f1[1]? = some L)
    (hsame : ∀ k, k ≠ 3 → f1[k]? = f2[k]?) :
    feedBytes past s f1 = feedBytes past s f2 ∧
    ∃ s1, feedBytes (fun i => some (junk i)) s f1 = some s1 ∧
      feedBytes (fun i => some (junk i)) s f2 = some s1 ∧ s1.currentPacket = [] := by
  have key : ∀ p : Nat → Option Nat, feedBytes p s f1 = feedBytes p s f2 := by
    intro p
    apply feedBytes_congr p s L f1 f2 hbuf hunset hL hf1 hf2 hlen1 hlen2 h0 h1
    · intro k hk
      apply hsame
      rcases hk with hk | hk | ⟨j, d, _, _, rfl⟩ <;> omega
    · exact hsame 4 (by omega)
  refine ⟨key past, ?_⟩
  obtain ⟨s1, hs1, hb1, _⟩ := feedBytes_frame_isSome junk s L f1 hbuf hunset hL hf1 hlen1 h0 h1
  exact ⟨s1, hs1, by rw [← key]; exact hs1, hb1⟩

/-- Witness of claim C14: two solo frames that differ in the reserved byte. -/
theorem C14_reserved_byte_unused_witness :
    feedBytes (fun _ => none) DataDecoder.init [1, 4, 162, 0, 84, 10, 0, 255, 0] =
        feedBytes (fun _ => none) DataDecoder.init [1, 4, 162, 77, 84, 10, 0, 255, 0] ∧
    ∃ s1, feedBytes (fun i => some ((fun _ => 0) i)) DataDecoder.init
        [1, 4, 162, 0, 84, 10, 0, 255, 0] = some s1 ∧
      feedBytes (fun i => some ((fun _ => 0) i)) DataDecoder.init
        [1, 4, 162, 77, 84, 10, 0, 255, 0] = some s1 ∧ s1.currentPacket = [] :=
  C14_reserved_byte_unused (fun _ => none) (fun _ => 0) DataDecoder.init 4
    [1, 4, 162, 0, 84, 10, 0, 255, 0] [1, 4, 162, 77, 84, 10, 0, 255, 0] rfl rfl
    (by decide) (by decide) (by decide) rfl rfl rfl rfl
    (by
      intro k hk
      rcases Nat.lt_or_ge k 3 with hlow | hhigh
      · interval_cases k <;> rfl
      · obtain ⟨j, rfl⟩ : ∃ j, k = j + 4 := ⟨k - 4, by omega⟩
        rfl)

/-! ## Claims C15, C16 and C18: invariants of the reachable states -/

/-- Bytes keep the buffer and the expected length fitting together, whatever lies behind
the buffer. -/
theorem feedBytes_bufferOk_of_some (past : Nat → Option Nat) (bytes : List Nat) :
    ∀ s s1, BufferOk s → (∀ x ∈ bytes, x < 256) → feedBytes past s bytes = some s1 →
      BufferOk s1 := by
  induction bytes with
  | nil =>
    intro s s1 hs _ h
    cases h
    exact hs
  | cons b bs ih =>
    intro s s1 hs hb h
    rw [feedBytes_cons] at h
    cases hn : newByteIn past s (Int.ofNat b) with
    | none => rw [hn] at h; cases h
    | some s2 =>
      rw [hn] at h
      exact ih s2 s1 (bufferOk_newByteIn past s s2 b hs (hb b (List.mem_cons_self _ _)) hn)
        (fun x hx => hb x (List.mem_cons_of_mem _ hx)) h

/-- After any call of `newByteIn` a set ready flag goes with an empty buffer and an unset
expected length. -/
theorem newByteIn_ready_idle (past : Nat → Option Nat) (s s1 : DataDecoder) (b : Int)
    (h : newByteIn past s b = some s1) (hr : s1.allPacketsReceived = true) :
    s1.currentPacket = [] ∧ s1.currentPacketLength = -1 := by
  rw [newByteIn_eq] at h
  split at h
  · cases h
    rw [dropReady_allPacketsReceived] at hr
    cases hr
  · split at h
    · cases h; cases hr
    · split at h
      · exact completePacket_reset past _ _ h
      · cases h; cases hr

/-- In every state a fresh decoder can reach, a set ready flag goes with an empty buffer
and an unset expected length. -/
theorem feed_ready_idle (past : Nat → Option Nat) (bytes : List Int) :
    ∀ s s1, (s.allPacketsReceived = true →
        s.currentPacket = [] ∧ s.currentPacketLength = -1) →
      feed past s bytes = some s1 → s1.allPacketsReceived = true →
      s1.currentPacket = [] ∧ s1.currentPacketLength = -1 := by
  induction bytes with
  | nil =>
    intro s s1 hs h
    cases h
    exact hs
  | cons b bs ih =>
    intro s s1 _ h
    simp only [feed] at h
    cases hn : newByteIn past s b with
    | none => rw [hn] at h; cases h
    | some s2 =>
      rw [hn] at h
      exact ih s2 s1 (newByteIn_ready_idle past s s2 b hn) h

/-- While a packet is under way the ready flag is down, in every state a fresh decoder
can reach: the hypothesis of claim C18 on the flag holds in all of them. -/
theorem feed_buffer_not_ready (past : Nat → Option Nat) (bytes : List Int) (s : DataDecoder)
    (h : feed past DataDecoder.init bytes = some s) (hne : s.currentPacket ≠ []) :
    s.allPacketsReceived = false := by
  cases hr : s.allPacketsReceived with
  | false => rfl
  | true =>
    exact absurd (feed_ready_idle past bytes DataDecoder.init s
      (fun h0 => by cases h0) h hr).1 hne

/-- Claim C15. Buffer-length invariant: in every state reached from a freshly constructed
decoder by feeding bytes, the expected length is set exactly when the buffer holds at
least 2 bytes; when set it is the second buffered byte plus 5 and the buffer is strictly
shorter than it; a non-empty buffer starts with the byte `1`. -/
theorem C15_buffer_length_invariant (past : Nat → Option Nat) (bytes : List Nat)
    (s : DataDecoder) (hbytes : ∀ x ∈ bytes, x < 256)
    (h : feedBytes past DataDecoder.init bytes = some s) :
    (s.currentPacketLength ≠ -1 ↔ 2 ≤ s.currentPacket.length) ∧
    (s.currentPacketLength ≠ -1 → ∃ L : Nat, s.currentPacket[1]? = some L ∧
      s.currentPacketLength = (L : Int) + 5 ∧
      (s.currentPacket.length : Int) < s.currentPacketLength) ∧
    (s.currentPacket ≠ [] → s.currentPacket[0]? = some 1) := by
  obtain ⟨_, hshort, hlong, hsync⟩ :=
    feedBytes_bufferOk_of_some past bytes DataDecoder.init s bufferOk_init hbytes h
  have hiff : s.currentPacketLength ≠ -1 ↔ 2 ≤ s.currentPacket.length := by
    constructor
    · intro hset
      by_contra hlt
      exact hset (hshort (by omega))
    · intro h2
      obtain ⟨L, _, _, hL2, _⟩ := hlong h2
      rw [hL2]
      omega
  refine ⟨hiff, ?_, ?_⟩
  · intro hset
    obtain ⟨L, _, hL1, hL2, hL3⟩ := hlong (hiff.mp hset)
    exact ⟨L, hL1, hL2, by rw [hL2]; omega⟩
  · intro hne
    cases hp : s.currentPacket with
    | nil => exact absurd hp hne
    | cons a rest =>
      have := hsync a (by rw [hp]; simp)
      subst this
      simp

/-- Witness of claim C15: the state after the bytes `1, 4, 162`. -/
theorem C15_buffer_length_invariant_witness :
    ((⟨9, [1, 4, 162], [], false⟩ : DataDecoder).currentPacketLength ≠ -1 ↔
      2 ≤ (⟨9, [1, 4, 162], [], false⟩ : DataDecoder).currentPacket.length) ∧
    ((⟨9, [1, 4, 162], [], false⟩ : DataDecoder).currentPacketLength ≠ -1 → ∃ L : Nat,
      (⟨9, [1, 4, 162], [], false⟩ : DataDecoder).currentPacket[1]? = some L ∧
      (⟨9, [1, 4, 162], [], false⟩ : DataDecoder).currentPacketLength = (L : Int) + 5 ∧
      ((⟨9, [1, 4, 162], [], false⟩ : DataDecoder).currentPacket.length : Int) <
        (⟨9, [1, 4, 162], [], false⟩ : DataDecoder).currentPacketLength) ∧
    ((⟨9, [1, 4, 162], [], false⟩ : DataDecoder).currentPacket ≠ [] →
      (⟨9, [1, 4, 162], [], false⟩ : DataDecoder).currentPacket[0]? = some 1) :=
  C15_buffer_length_invariant (fun _ => none) [1, 4, 162] ⟨9, [1, 4, 162], [], false⟩
    (by decide) (by decide)

/-- Claim C16. Ready and in-progress are mutually exclusive: in every state reached from
a freshly constructed decoder by any sequence of `newByteIn` calls, if
`getAllPacketsReceived()` is true then the buffer is empty and the expected length is
unset. -/
theorem C16_ready_excludes_in_progress (past : Nat → Option Nat) (bytes : List Int)
    (s : DataDecoder) (h : feed past DataDecoder.init bytes = some s)
    (hr : getAllPacketsReceived s = true) :
    s.currentPacket = [] ∧ s.currentPacketLength = -1 :=
  feed_ready_idle past bytes DataDecoder.init s (fun h0 => by cases h0) h hr

/-- Witness of claim C16: the state after the solo frame `[1,1,171,0,84,0]`. -/
theorem C16_ready_excludes_in_progress_witness :
    (⟨-1, [], [], true⟩ : DataDecoder).currentPacket = [] ∧
      (⟨-1, [], [], true⟩ : DataDecoder).currentPacketLength = -1 :=
  C16_ready_excludes_in_progress (fun _ => none) [1, 1, 171, 0, 84, 0] ⟨-1, [], [], true⟩
    (by decide) rfl

/-- Claim C18. No resynchronisation inside a frame: for every decoder whose buffer is
non-empty (so that its ready flag is down, `feed_buffer_not_ready`) and for which one
more byte stays below the expected length, or whose expected length is unset, and for
every byte, the sync value `1` included, `newByteIn` only appends the byte to the buffer,
sets the expected length to the byte plus 5 when it is the second byte, and leaves the
holds and the ready flag as they are. -/
theorem C18_no_resync_mid_frame (past : Nat → Option Nat) (s : DataDecoder) (b : Nat)
    (hb : b < 256) (hne : s.currentPacket ≠ []) (hready : s.allPacketsReceived = false)
    (hroom : ((s.currentPacket.length + 1 : Nat) : Int) < s.currentPacketLength ∨
      s.currentPacketLength = -1) :
    newByteIn past s (Int.ofNat b) =
      some ⟨if s.currentPacket.length + 1 = 2 then (b : Int) + 5 else s.currentPacketLength,
        s.currentPacket ++ [b], s.holds, s.allPacketsReceived⟩ := by
  have hlen : s.currentPacket.length ≠ 0 := fun h => hne (List.length_eq_zero.mp h)
  rw [newByteIn_eq, toUInt8_ofNat hb, dropReady_of_not_ready hready, hready,
    if_neg (fun h => hlen h.1)]
  by_cases h2 : s.currentPacket.length + 1 = 2
  · rw [if_pos h2, if_pos h2]
    rfl
  · rw [if_neg h2, if_neg h2, if_neg]
    rcases hroom with h | h
    · omega
    · rw [h]; omega

/-- Witness of claim C18: the sync value `1` arriving as fourth byte of a packet. -/
theorem C18_no_resync_mid_frame_witness :
    newByteIn (fun _ => none) ⟨9, [1, 4, 162], [], false⟩ (Int.ofNat 1) =
      some ⟨if (⟨9, [1, 4, 162], [], false⟩ : DataDecoder).currentPacket.length + 1 = 2
          then ((1 : Nat) : Int) + 5 else 9,
        [1, 4, 162] ++ [1], [], false⟩ :=
  C18_no_resync_mid_frame (fun _ => none) ⟨9, [1, 4, 162], [], false⟩ 1 (by decide)
    (by decide) rfl (Or.inl (by decide))

/-! ## Claims C19 and C20: packets without triplets -/

/-- While a packet of `L + 5` bytes is under way the ready flag is down. -/
theorem feedBytes_packet_take (past : Nat → Option Nat) (s : DataDecoder) (L : Nat)
    (rest : List Nat) (hbuf : s.currentPacket = []) (hlen : s.currentPacketLength ≠ 1)
    (hL : L < 256) (hrest : ∀ x ∈ rest, x < 256) (hk3 : rest.length = L + 3)
    (k : Nat) (hk0 : 0 < k) (hk : k < L + 5) :
    ∃ s1, feedBytes past s ((1 :: L :: rest).take k) = some s1 ∧
      s1.allPacketsReceived = false := by
  obtain ⟨k1, rfl⟩ : ∃ k1, k = k1 + 1 := ⟨k - 1, by omega⟩
  rw [List.take_succ_cons]
  cases k1 with
  | zero =>
    refine ⟨⟨s.currentPacketLength, [1], (dropReady s).holds, false⟩, ?_, rfl⟩
    rw [List.take_zero, feedBytes_cons]
    have h1 : Int.ofNat 1 = 1 := rfl
    rw [h1, newByteIn_sync past s hbuf hlen]
    rfl
  | succ k2 =>
    rw [List.take_succ_cons]
    refine ⟨_, feedBytes_packet_front past s _ _ hbuf hlen hL ?_ ?_, rfl⟩
    · intro x hx
      exact hrest x (List.mem_of_mem_take hx)
    · rw [List.length_take]
      omega

/-- Claim C19. An empty first packet does not open a group: the checksum-valid frame
`[1, 1, 173, r, 82, t]` (role 82, no triplets) fed to a freshly constructed decoder is
accepted by `verifyAndParsePacket` but leaves the holds empty; so every checksum-valid
frame that follows at once and whose role byte is neither 82 nor 84 is rejected by the
ordering check, and `getAllPacketsReceived()` is false after every byte of the two
frames. -/
theorem C19_empty_first_packet (past : Nat → Option Nat) (r t L c r2 role : Nat)
    (body : List Nat) (hr : r < 256) (ht : t < 256) (hL : L < 256)
    (hbody : body.length = L) (hbytes : ∀ x ∈ r2 :: role :: body, x < 256)
    (hc : c = checksum ((role :: body).take L)) (h82 : role ≠ 82) (h84 : role ≠ 84) :
    feedBytes past DataDecoder.init [1, 1, 173, r, 82, t] = some ⟨-1, [], [], false⟩ ∧
    (verifyAndParsePacket past ⟨6, [1, 1, 173, r, 82, t], [], false⟩).map Prod.fst =
      some true ∧
    (verifyAndParsePacket past
      ⟨(L : Int) + 5, 1 :: L :: c :: r2 :: role :: body, [], false⟩).map Prod.fst =
      some false ∧
    feedBytes past DataDecoder.init
      ([1, 1, 173, r, 82, t] ++ 1 :: L :: c :: r2 :: role :: body) =
      some ⟨-1, [], [], false⟩ ∧
    ∀ k, k ≤ ([1, 1, 173, r, 82, t] ++ 1 :: L :: c :: r2 :: role :: body).length →
      ∃ s, feedBytes past DataDecoder.init
          (([1, 1, 173, r, 82, t] ++ 1 :: L :: c :: r2 :: role :: body).take k) = some s ∧
        getAllPacketsReceived s = false := by
  have hts : TripletsOk [] := by intro x hx; cases hx
  have hf1 : ([1, 1, 173, r, 82, t] : List Nat) = frameOf 82 r t [] := rfl
  have hfirst : feedBytes past DataDecoder.init [1, 1, 173, r, 82, t] =
      some ⟨-1, [], [], false⟩ := by
    rw [hf1, feedBytes_frameOf past DataDecoder.init 82 r t [] rfl (by decide) (by decide) hts
      (by decide) hr ht]
    rfl
  have hv1 : (verifyAndParsePacket past ⟨6, [1, 1, 173, r, 82, t], [], false⟩).map Prod.fst =
      some true := by
    have := verifyAndParsePacket_frameOf past [] false 82 r t [] hts
    rw [← hf1] at this
    exact (congrArg (Option.map Prod.fst) this).trans rfl
  have hrole : (role == 84 || role == 82) = false := by simp [h82, h84]
  have hcb : c < 256 := by rw [hc]; exact checksum_lt _
  have hrest : ∀ x ∈ c :: r2 :: role :: body, x < 256 := by
    intro x hx
    rcases List.mem_cons.mp hx with rfl | hx
    · exact hcb
    · exact hbytes x hx
  have hsecond : feedBytes past ⟨-1, [], [], false⟩ (1 :: L :: c :: r2 :: role :: body) =
      some ⟨-1, [], [], false⟩ := by
    rw [feedBytes_packet past _ L _ rfl (by simp) hL hrest
      (by simp only [List.length_cons]; omega),
      completePacket_packet past L 1 L c r2 role body _ _ hbody, if_neg (by rw [hc]; simp),
      if_pos (Or.inl ⟨rfl, hrole⟩)]
  refine ⟨hfirst, hv1, ?_, ?_, ?_⟩
  · rw [verifyAndParsePacket_packet past L 1 L c r2 role body [] false hbody,
      if_neg (by rw [hc]; simp), if_pos (Or.inl ⟨rfl, hrole⟩)]
    rfl
  · rw [feedBytes_append, hfirst]
    exact hsecond
  · intro k hk
    simp only [List.length_append, List.length_cons, List.length_nil] at hk
    by_cases hk1 : k ≤ ([1, 1, 173, r, 82, t] : List Nat).length
    · rw [List.take_append_of_le_length hk1]
      rcases Nat.eq_zero_or_pos k with rfl | hk0
      · exact ⟨DataDecoder.init, rfl, rfl⟩
      · rcases Nat.lt_or_ge k ([1, 1, 173, r, 82, t] : List Nat).length with hlt | hge
        · obtain ⟨s1, hs1, hfl⟩ := feedBytes_packet_take past DataDecoder.init 1
            [173, r, 82, t] rfl (by decide) (by decide)
            (by
              intro x hx
              simp only [List.mem_cons, List.mem_singleton, List.not_mem_nil, or_false] at hx
              rcases hx with rfl | rfl | rfl | rfl
              · decide
              · exact hr
              · decide
              · exact ht)
            rfl k hk0 (by simpa using hlt)
          exact ⟨s1, hs1, hfl⟩
        · rw [List.take_of_length_le hge, hfirst]
          exact ⟨_, rfl, rfl⟩
    · have hk1 : ([1, 1, 173, r, 82, t] : List Nat).length < k := Nat.lt_of_not_le hk1
      rw [List.take_append_eq_append_take, List.take_of_length_le (Nat.le_of_lt hk1),
        feedBytes_append, hfirst]
      simp only [Option.some_bind]
      simp only [List.length_cons, List.length_nil] at hk1 ⊢
      rcases Nat.lt_or_ge (k - 6) (L + 5) with hlt | hge
      · exact feedBytes_packet_take past ⟨-1, [], [], false⟩ L (c :: r2 :: role :: body) rfl
          (by simp) hL hrest (by simp only [List.length_cons]; omega) (k - 6) (by omega) hlt
      · rw [List.take_of_length_le (by simp only [List.length_cons]; omega), hsecond]
        exact ⟨_, rfl, rfl⟩

/-- Witness of claim C19: the empty first packet followed by a last packet (role 83) with
one triplet. -/
theorem C19_empty_first_packet_witness :
    feedBytes (fun _ => none) DataDecoder.init [1, 1, 173, 0, 82, 0] =
      some ⟨-1, [], [], false⟩ ∧
    (verifyAndParsePacket (fun _ => none) ⟨6, [1, 1, 173, 0, 82, 0], [], false⟩).map Prod.fst =
      some true ∧
    (verifyAndParsePacket (fun _ => none)
      ⟨((4 : Nat) : Int) + 5, 1 :: 4 :: 163 :: 0 :: 83 :: [10, 0, 255, 0], [], false⟩).map
        Prod.fst = some false ∧
    feedBytes (fun _ => none) DataDecoder.init
      ([1, 1, 173, 0, 82, 0] ++ 1 :: 4 :: 163 :: 0 :: 83 :: [10, 0, 255, 0]) =
      some ⟨-1, [], [], false⟩ ∧
    ∀ k, k ≤ ([1, 1, 173, 0, 82, 0] ++ 1 :: 4 :: 163 :: 0 :: 83 :: [10, 0, 255, 0]).length →
      ∃ s, feedBytes (fun _ => none) DataDecoder.init
          (([1, 1, 173, 0, 82, 0] ++ 1 :: 4 :: 163 :: 0 :: 83 :: [10, 0, 255, 0]).take k) =
            some s ∧
        getAllPacketsReceived s = false :=
  C19_empty_first_packet (fun _ => none) 0 0 4 163 0 83 [10, 0, 255, 0] (by decide) (by decide)
    (by decide) rfl (by decide) (by decide) (by decide) (by decide)

/-- Claim C20. A ready batch can be empty: for every reserved byte `r` the 5-byte frame
`[1, 0, 255, r, 84]` (`L = 0`: the checksum range `4 .. len-2` is empty, its checksum is
255 and the role byte is not covered) and, for every `r` and `t`, the 6-byte frame
`[1, 1, 171, r, 84, t]`, fed to a freshly constructed decoder, both end with
`getAllPacketsReceived()` true and `getHolds()` empty. -/
theorem C20_ready_batch_can_be_empty (past : Nat → Option Nat) (r t : Nat)
    (hr : r < 256) (ht : t < 256) :
    (∃ s, feedBytes past DataDecoder.init [1, 0, 255, r, 84] = some s ∧
      getAllPacketsReceived s = true ∧ (getHolds s).1 = []) ∧
    (∃ s, feedBytes past DataDecoder.init [1, 1, 171, r, 84, t] = some s ∧
      getAllPacketsReceived s = true ∧ (getHolds s).1 = []) ∧
    subVector [1, 0, 255, r, 84] 4 (5 - 1) = some [] ∧ checksum [] = 255 ∧
    checksum [84] = 171 := by
  refine ⟨⟨⟨-1, [], [], true⟩, ?_, rfl, rfl⟩, ⟨⟨-1, [], [], true⟩, ?_, rfl, rfl⟩, ?_,
    by decide, by decide⟩
  · have hrest : ∀ x ∈ [255, r, 84], x < 256 := by
      intro x hx
      simp only [List.mem_cons, List.mem_singleton, List.not_mem_nil, or_false] at hx
      rcases hx with rfl | rfl | rfl
      · decide
      · exact hr
      · decide
    rw [feedBytes_packet past DataDecoder.init 0 [255, r, 84] rfl (by decide) (by decide) hrest
      rfl, completePacket_packet past 0 1 0 255 r 84 [] _ _ rfl,
      if_neg (by decide), if_neg (by decide)]
    rfl
  · have hts : TripletsOk [] := by intro x hx; cases hx
    have hf : ([1, 1, 171, r, 84, t] : List Nat) = frameOf 84 r t [] := rfl
    rw [hf, feedBytes_frameOf past DataDecoder.init 84 r t [] rfl (by decide) (by decide) hts
      (by decide) hr ht]
    rfl
  · have := subVector_packet 0 1 0 255 r 84 [] rfl
    exact this

/-- Witness of claim C20 with reserved byte 0 and terminator 0. -/
theorem C20_ready_batch_can_be_empty_witness :
    (∃ s, feedBytes (fun _ => none) DataDecoder.init [1, 0, 255, 0, 84] = some s ∧
      getAllPacketsReceived s = true ∧ (getHolds s).1 = []) ∧
    (∃ s, feedBytes (fun _ => none) DataDecoder.init [1, 1, 171, 0, 84, 0] = some s ∧
      getAllPacketsReceived s = true ∧ (getHolds s).1 = []) ∧
    subVector [1, 0, 255, 0, 84] 4 (5 - 1) = some [] ∧ checksum [] = 255 ∧
    checksum [84] = 171 :=
  C20_ready_batch_can_be_empty (fun _ => none) 0 0 (by decide) (by decide)

end Kilter
